import Mathlib

/-!
Shallow embedding of the Wave Function Collapse engine from the
`useWaveFunctionCollapse` React hook (the repository's core):

* JavaScript `Map<number, _>` objects are modelled as insertion-ordered
  association lists (`set` on an existing key updates it in place, `set` on a
  missing key appends, `delete` removes, iteration follows list order).
* JavaScript `Set<number>` objects are modelled as insertion-ordered duplicate
  free lists; the value `undefined` that a pattern-id variable can take (array
  lookup out of bounds) is modelled by `Option Nat` with `none` standing for
  `undefined`.
* The source mutates the live `wave` / `entropy` maps in place during `draw`;
  the embedding threads the state explicitly and returns it on every path,
  including the early `return` taken on a contradiction, so the returned state
  is exactly the state the mutations left behind.
* `Math.random()` is replaced by an explicit oracle (`Rng`): one natural
  number for the weighted pick and a stream of rationals for the entropy
  jitter.  Entropy values are rationals (`ℚ`) instead of IEEE doubles; the
  jitter subtracted is `j / 10`, matching `Math.random() * 0.1` with
  `j ∈ [0, 1)`.
* `draw`'s JavaScript return values are the distinct constructors of
  `DrawRet`: `rnull` for `return null`, `rundef` for the bare `return;` taken
  on a contradiction (which yields `undefined`), and `rsuccess` for the result
  record.  The propagation `while` loop runs on fuel; `rstuck` marks fuel
  exhaustion and is proved unreachable for the fuel `draw` supplies.
-/

namespace WFC

/-- A pixel: the 4 colour channels read from the `Uint8ClampedArray`. -/
abbrev Pixel := List Nat

/-- A pattern, `number[][][]` in the source: rows of pixels. -/
abbrev Pat := List (List Pixel)

/-- A JavaScript `Set` of pattern ids; `none` models `undefined`. -/
abbrev Dom := List (Option Nat)

/-- JS `Map.get`: value of the first entry with the given key. -/
def mget {α : Type} (m : List (Nat × α)) (k : Nat) : Option α :=
  (m.find? (fun p => p.1 = k)).map (fun p => p.2)

/-- JS `Map.set`: update the entry in place when the key is present,
append a new entry otherwise. -/
def mset {α : Type} (m : List (Nat × α)) (k : Nat) (v : α) : List (Nat × α) :=
  if m.any (fun p => p.1 = k) then
    m.map (fun p => if p.1 = k then (k, v) else p)
  else
    m ++ [(k, v)]

/-- JS `Map.delete`. -/
def mdelete {α : Type} (m : List (Nat × α)) (k : Nat) : List (Nat × α) :=
  m.filter (fun p => ¬ p.1 = k)

/-- JS `Map.has`. -/
def mhas {α : Type} (m : List (Nat × α)) (k : Nat) : Bool :=
  m.any (fun p => p.1 = k)

/-- JS `Set.add`: append the element unless it is already present. -/
def nsAdd (s : Dom) (x : Option Nat) : Dom :=
  if x ∈ s then s else s ++ [x]

/-- JS `new Set(iterable)`: insert the elements one by one. -/
def nsOfList (l : Dom) : Dom :=
  l.foldl nsAdd []

/-- Source `isSubSetOf`: `Array.from(subset).every((e) => superset.has(e))`. -/
def isSubSetOf (subset superset : Dom) : Bool :=
  subset.all (fun e => e ∈ superset)

/-- Source `intersectSets`: iterate `setA`, keep elements present in `setB`. -/
def intersectSets (setA setB : Dom) : Dom :=
  setA.foldl (fun acc e => if e ∈ setB then nsAdd acc e else acc) []

/-- The engine's mutable state: the hook's `wave`, `adjacencies`, `entropy`,
`patterns`, `frequencies`, `cellDimensionX/Y` React state variables. -/
structure EngineSt where
  wave : List (Nat × Dom)
  adjacencies : List (Nat × List Dom)
  entropy : List (Nat × ℚ)
  patterns : List Pat
  frequencies : List Nat
  cellDimensionX : Option Nat
  cellDimensionY : Option Nat
deriving DecidableEq

/-- The random oracle: `pick` drives the weighted pattern selection
(`Math.floor(Math.random() * weightedPatterns.length)`), `jitter k` is the
`Math.random()` value of the `k`-th entropy update of the propagation. -/
structure Rng where
  pick : Nat
  jitter : Nat → ℚ

/-- The source's `directions` array: Left, Right, Up, Down unit vectors. -/
def directions : List (Int × Int) :=
  [(-1, 0), (1, 0), (0, -1), (0, 1)]

/-- The source's `directionMapping`: direction vector to adjacency index. -/
def dirIndex (d : Int × Int) : Nat :=
  if d = (-1, 0) then 0
  else if d = (1, 0) then 1
  else if d = (0, -1) then 2
  else 3

/-- Neighbour computation inside `draw`'s propagation loop:
`x = ((c % W) + dx + W) % W` (toroidal wrap), `y = floor(c / W) + dy`
bounds-checked against `[0, H)` with no wrap. -/
def neighborIndex (W H : Nat) (c : Nat) (d : Int × Int) : Option Nat :=
  let x : Int := (((c : Int) % (W : Int)) + d.1 + (W : Int)) % (W : Int)
  let y : Int := (c : Int) / (W : Int) + d.2
  if 0 ≤ y ∧ y < (H : Int) then some (x.toNat + y.toNat * W) else none

/-- Source `findMinEntropyKey`: scan the map in insertion order, keep the
first key whose value is strictly below the running minimum (initially
`Infinity`, so the first entry always wins). -/
def findMinEntropyKey (m : List (Nat × ℚ)) : Option Nat :=
  (m.foldl
    (fun acc p =>
      match acc with
      | none => some p
      | some q => if p.2 < q.2 then some p else acc)
    none).map (fun p => p.1)

/-- Source `selectRandomPattern`.  The outer `Option` is the JS `null` it can
return; the inner `Option Nat` is the selected id, with `none` standing for
the `undefined` produced by indexing an empty `weightedPatterns` array.
`if (entropyMin)` is JS truthiness: both `null` and the key `0` are falsy. -/
def selectRandomPattern (w : List (Nat × Dom)) (entropyMin : Option Nat)
    (frequencies : List Nat) (pick : Nat) : Option (Option Nat) :=
  match entropyMin with
  | none => none
  | some k =>
    if k ≠ 0 then
      match mget w k with
      | none => none
      | some possiblePatterns =>
        if possiblePatterns.length = 0 then none
        else
          let weightedPatterns : Dom :=
            possiblePatterns.foldl
              (fun acc idP =>
                let freq := match idP with
                  | some n => frequencies.getD n 0
                  | none => 0
                acc ++ List.replicate freq idP)
              []
          if weightedPatterns.length = 0 then some none
          else some (weightedPatterns.getD (pick % weightedPatterns.length) none)
    else none

/-- Outcome of processing one direction of the popped cell. -/
inductive DirOut where
  | contra (st : EngineSt)
  | ok (st : EngineSt) (push : List Nat) (ctr : Nat)
deriving DecidableEq

/-- One direction of the propagation body: compute the neighbour, skip it when
out of bounds or already collapsed, otherwise narrow its domain, update its
entropy with jitter, and push it — or stop on an empty intersection. -/
def processDir (W H : Nat) (jit : Nat → ℚ) (cur : Nat) (st : EngineSt)
    (ctr : Nat) (d : Int × Int) : DirOut :=
  match neighborIndex W H cur d with
  | none => .ok st [] ctr
  | some n =>
    if mhas st.entropy n then
      let possiblePatterns : Dom :=
        match mget st.wave cur with
        | none => []
        | some currentCellPatterns =>
          currentCellPatterns.foldl
            (fun acc idP =>
              match idP with
              | none => acc
              | some p =>
                match mget st.adjacencies p with
                | none => acc
                | some adjacencyMaps =>
                  (adjacencyMaps.getD (dirIndex d) []).foldl nsAdd acc)
            []
      let availablePatterns : Dom := nsOfList ((mget st.wave n).getD [])
      if isSubSetOf availablePatterns possiblePatterns then .ok st [] ctr
      else
        let intersectedPatterns := intersectSets possiblePatterns availablePatterns
        if intersectedPatterns.length = 0 then .contra st
        else
          .ok
            { st with
              wave := mset st.wave n intersectedPatterns,
              entropy := mset st.entropy n
                ((intersectedPatterns.length : ℚ) - jit ctr / 10) }
            [n] (ctr + 1)
    else .ok st [] ctr

/-- The `for (const [dx, dy] of directions)` loop over one popped cell. -/
def processDirs (W H : Nat) (jit : Nat → ℚ) (cur : Nat) :
    EngineSt → Nat → List (Int × Int) → DirOut
  | st, ctr, [] => .ok st [] ctr
  | st, ctr, d :: ds =>
    match processDir W H jit cur st ctr d with
    | .contra st' => .contra st'
    | .ok st' push ctr' =>
      match processDirs W H jit cur st' ctr' ds with
      | .contra st'' => .contra st''
      | .ok st'' pushes ctr'' => .ok st'' (push ++ pushes) ctr''

/-- Outcome of the propagation `while` loop. -/
inductive PropOut where
  | contra (st : EngineSt)
  | done (st : EngineSt)
  | fuelout (st : EngineSt)
deriving DecidableEq

/-- The propagation `while (stack.length > 0)` loop, on fuel.  The stack's top
is the list head (JS pushes and pops at the array's end); the pushes of one
iteration are appended so that the last push is popped first. -/
def propagate (W H : Nat) (jit : Nat → ℚ) :
    Nat → EngineSt → Nat → List Nat → PropOut
  | _, st, _, [] => .done st
  | 0, st, _, _ :: _ => .fuelout st
  | fuel + 1, st, ctr, cur :: rest =>
    match processDirs W H jit cur st ctr directions with
    | .contra st' => .contra st'
    | .ok st' pushes ctr' => propagate W H jit fuel st' ctr' (pushes.reverse ++ rest)

/-- Total number of pattern ids stored across the wave's domains; the fuel
`draw` hands to `propagate`. -/
def potential (w : List (Nat × Dom)) : Nat :=
  (w.map (fun p => p.2.length)).sum

/-- The value `draw` returns to its caller: `rnull` for `return null`,
`rundef` for the bare `return;` on a contradiction (JS `undefined`),
`rsuccess` for the result record, `rstuck` for propagation fuel exhaustion
(proved unreachable). -/
inductive DrawRet where
  | rnull
  | rundef
  | rsuccess (selectedPattern : Pat) (entropyMin : Nat)
      (cellDimensionX cellDimensionY : Option Nat)
  | rstuck
deriving DecidableEq

/-- Source `draw`: select the minimum-entropy cell, pick a pattern weighted by
frequency, collapse, propagate, and return the result record — threading the
in-place mutations of `wave` / `entropy` through every return path. -/
def draw (W H : Nat) (rng : Rng) (st : EngineSt) : DrawRet × EngineSt :=
  if st.entropy.length = 0 then (.rnull, st)
  else
    match findMinEntropyKey st.entropy with
    | none => (.rnull, st)
    | some entropyMin =>
      match selectRandomPattern st.wave (some entropyMin) st.frequencies rng.pick with
      | none => (.rnull, st)
      | some selectedPatternId =>
        let st1 : EngineSt :=
          { st with
            wave := mset st.wave entropyMin [selectedPatternId],
            entropy := mdelete st.entropy entropyMin }
        match propagate W H rng.jitter (potential st1.wave + 1) st1 0 [entropyMin] with
        | .contra st2 => (.rundef, st2)
        | .fuelout st2 => (.rstuck, st2)
        | .done st2 =>
          match (match selectedPatternId with
                 | some n => st2.patterns.get? n
                 | none => none) with
          | none => (.rnull, st2)
          | some selectedPattern =>
            (.rsuccess selectedPattern entropyMin st2.cellDimensionX st2.cellDimensionY,
             st2)

/-- Source `rotate90` (defined inside `setup`): row `x` of the result is
column `x` of the matrix read bottom-to-top (`for y = rows-1 downto 0`).
`matrix[0].length` is modelled as the length of the head row. -/
def rotate90 (matrix : Pat) : Pat :=
  (List.range (matrix.headD []).length).map (fun x =>
    ((List.range matrix.length).reverse).map (fun y =>
      (matrix.getD y []).getD x ([] : Pixel)))

/-- The symmetry-variant loop of `setup`: for `r = 0..3` push the current
rotation, its row reversal (`slice().reverse()`) and its per-row column
reversal (`map(row => row.slice().reverse())`), then rotate 90° for the next
iteration. -/
def windowVariants (cmat : Pat) : List Pat :=
  ((List.range 4).foldl
    (fun acc _ =>
      (acc.1 ++ [acc.2, acc.2.reverse, acc.2.map List.reverse], rotate90 acc.2))
    (([] : List Pat), cmat)).1

/-- The `kernel` offset matrix of `setup`: `kernel[n][i] = i + n * imageWidth`. -/
def kernel (patternDim imageWidth : Nat) : List (List Nat) :=
  (List.range patternDim).map (fun n =>
    (List.range patternDim).map (fun i => i + n * imageWidth))

/-- The `cmat` window anchored at `(x, y)`: colour data looked up with the
source's wrap-around index arithmetic on the 4-bytes-per-pixel buffer.
A read past the buffer's end (JS `undefined`) is modelled by the default 0. -/
def cmatAt (patternDim : Nat) (imageData : List Nat) (imageWidth imageHeight : Nat)
    (x y : Nat) : Pat :=
  (kernel patternDim imageWidth).map (fun row =>
    row.map (fun offset =>
      let pixelX := (x + offset) % imageWidth
      let pixelY := ((offset + imageWidth * y) / imageWidth) % imageHeight
      let pixelIndex := (pixelY * imageWidth + pixelX) * 4
      [imageData.getD pixelIndex 0, imageData.getD (pixelIndex + 1) 0,
       imageData.getD (pixelIndex + 2) 0, imageData.getD (pixelIndex + 3) 0]))

/-- `allPatterns`: for every sample position (row-major, `y` outer, `x`
inner) the 12 symmetry variants of its window. -/
def allPatterns (patternDim : Nat) (imageData : List Nat)
    (imageWidth imageHeight : Nat) : List Pat :=
  (List.range imageHeight).flatMap (fun y =>
    (List.range imageWidth).flatMap (fun x =>
      windowVariants (cmatAt patternDim imageData imageWidth imageHeight x y)))

/-- The deduplication pass of `setup`: `patternCounts`, `patternIndexMap` and
`uniquePatterns` are kept in lock step in the source, all in first-seen
order, and `freqs[patternIndexMap.get(key)] = count`; the three collapse to
one association list in first-seen order.  The `JSON.stringify` keys are
replaced by structural equality of the patterns (the encoding is injective
on this data). -/
def dedupStep (acc : List (Pat × Nat)) (pattern : Pat) : List (Pat × Nat) :=
  if acc.any (fun q => q.1 = pattern) then
    acc.map (fun q => if q.1 = pattern then (q.1, q.2 + 1) else q)
  else acc ++ [(pattern, 1)]

def dedupFold (l : List Pat) : List (Pat × Nat) :=
  l.foldl dedupStep []

/-- `l.filter((_, i) => p i)`: keep the elements whose index satisfies `p`. -/
def filterIdx {α : Type} (l : List α) (p : Nat → Bool) : List α :=
  (l.enum.filter (fun x => p x.1)).map (fun x => x.2)

/-- Source `isHorizontallyAdjacent`: flatten both patterns one level, drop
pattern1's rightmost column (`i % N !== N - 1`) and pattern2's leftmost
column (`i % N !== 0`), compare. -/
def isHorizontallyAdjacent (pattern1 pattern2 : Pat) (N : Nat) : Bool :=
  decide (filterIdx pattern1.flatten (fun i => ¬ i % N = N - 1) =
          filterIdx pattern2.flatten (fun i => ¬ i % N = 0))

/-- Source `isVerticallyAdjacent`: pattern1 without its bottom row
(`slice(0, N*N - N)`) equals pattern2 without its top row (`slice(N)`). -/
def isVerticallyAdjacent (pattern1 pattern2 : Pat) (N : Nat) : Bool :=
  decide (pattern1.flatten.take (N * N - N) = pattern2.flatten.drop N)

/-- `initAdjacencies.get(k)?.[dir].add(v)`: the optional chaining is a no-op
when the key is missing; otherwise the direction's set gains `v` in place. -/
def addAdj (adj : List (Nat × List Dom)) (k : Nat) (dir : Nat) (v : Nat) :
    List (Nat × List Dom) :=
  match mget adj k with
  | none => adj
  | some sets => mset adj k (sets.set dir (nsAdd (sets.getD dir []) (some v)))

/-- The empty adjacency table: one array of four empty sets per pattern id. -/
def adjacencyInit (numberOfUniquePatterns : Nat) : List (Nat × List Dom) :=
  (List.range numberOfUniquePatterns).map (fun i => (i, ([[], [], [], []] : List Dom)))

/-- The body of the compatibility double loop for one pair `(i, j)`:
on horizontal compatibility add `j` to `adjacency[i][0]` (Left) and `i` to
`adjacency[j][1]` (Right); on vertical compatibility add `j` to
`adjacency[i][2]` (Up) and `i` to `adjacency[j][3]` (Down). -/
def adjacencyStep (initPatterns : List Pat) (patternDim : Nat)
    (adj : List (Nat × List Dom)) (ij : Nat × Nat) : List (Nat × List Dom) :=
  let adj1 :=
    if isHorizontallyAdjacent (initPatterns.getD ij.1 [])
        (initPatterns.getD ij.2 []) patternDim then
      addAdj (addAdj adj ij.1 0 ij.2) ij.2 1 ij.1
    else adj
  if isVerticallyAdjacent (initPatterns.getD ij.1 [])
      (initPatterns.getD ij.2 []) patternDim then
    addAdj (addAdj adj1 ij.1 2 ij.2) ij.2 3 ij.1
  else adj1

/-- The full compatibility double loop (`i` outer, `j` inner, both over all
unique pattern ids). -/
def buildAdjacencies (initPatterns : List Pat) (patternDim : Nat) :
    List (Nat × List Dom) :=
  ((List.range initPatterns.length).flatMap (fun i =>
    (List.range initPatterns.length).map (fun j => (i, j)))).foldl
    (adjacencyStep initPatterns patternDim) (adjacencyInit initPatterns.length)

/-- Source `setup`: build the pattern library, the frequencies, the adjacency
table, the fully superposed wave and the entropy map with one randomly seeded
lower entry.  `seed` stands for the `Math.random()` draw picking that cell
(`Math.floor(Math.random() * cells)` realises exactly the values
`seed % cells`; on a zero-cell grid the floor is 0 and the `set` still adds
key 0 to the otherwise empty entropy map).  `cellDimension` is
`Math.floor(canvas / outputDim)`; the `Infinity` a zero `outputDim` produces
is modelled by `none` (the field's initial `undefined` is also `none`). -/
def setup (outputDimWidth outputDimHeight patternDim : Nat)
    (imageData : List Nat) (imageWidth imageHeight : Nat)
    (canvasWidth canvasHeight : Nat) (seed : Nat) : EngineSt :=
  let lib := dedupFold (allPatterns patternDim imageData imageWidth imageHeight)
  let uniques := lib.map (fun q => q.1)
  let freqs := lib.map (fun q => q.2)
  let numberOfUniquePatterns := uniques.length
  let cells := outputDimWidth * outputDimHeight
  let waveInit : List (Nat × Dom) :=
    (List.range cells).map (fun i =>
      (i, (List.range numberOfUniquePatterns).map some))
  let entropyBase : List (Nat × ℚ) :=
    (List.range cells).map (fun i => (i, (numberOfUniquePatterns : ℚ)))
  let randomPatternIndex := if cells = 0 then 0 else seed % cells
  { wave := waveInit
    adjacencies := buildAdjacencies uniques patternDim
    entropy := mset entropyBase randomPatternIndex ((numberOfUniquePatterns : ℚ) - 1)
    patterns := uniques
    frequencies := freqs
    cellDimensionX :=
      if outputDimWidth = 0 then none else some (canvasWidth / outputDimWidth)
    cellDimensionY :=
      if outputDimHeight = 0 then none else some (canvasHeight / outputDimHeight) }

/-! ### Helper lemmas about the map and set models -/

theorem mget_nil {α : Type} (k : Nat) : mget ([] : List (Nat × α)) k = none := rfl

theorem mget_cons {α : Type} (a : Nat × α) (as : List (Nat × α)) (k : Nat) :
    mget (a :: as) k = if a.1 = k then some a.2 else mget as k := by
  unfold mget
  by_cases h : a.1 = k <;> simp [List.find?, h]

theorem mhas_cons {α : Type} (a : Nat × α) (as : List (Nat × α)) (k : Nat) :
    mhas (a :: as) k = (a.1 = k || mhas as k) := by
  unfold mhas
  simp

theorem mhas_iff_mget {α : Type} (m : List (Nat × α)) (k : Nat) :
    mhas m k = true ↔ (mget m k).isSome := by
  induction m with
  | nil => simp [mhas, mget_nil]
  | cons a as ih =>
    rw [mhas_cons, mget_cons]
    by_cases h : a.1 = k <;> simp [h, ih]

theorem mget_replaceList {α : Type} (m : List (Nat × α)) (k : Nat) (v : α)
    (k' : Nat) :
    mget (m.map (fun p => if p.1 = k then (k, v) else p)) k' =
      if k' = k then (if mhas m k then some v else none) else mget m k' := by
  induction m with
  | nil => by_cases h : k' = k <;> simp [mget_nil, mhas, h]
  | cons a as ih =>
    by_cases ha : a.1 = k
    · rw [List.map_cons, if_pos ha, mget_cons, mget_cons, mhas_cons]
      by_cases hk : k' = k
      · simp [hk, ha]
      · have : ¬ (k : Nat) = k' := fun hc => hk hc.symm
        have ha' : ¬ a.1 = k' := by rw [ha]; exact this
        simp only [this, if_neg, ha', ih, hk, if_false]
    · rw [List.map_cons, if_neg ha, mget_cons, mget_cons, mhas_cons]
      by_cases hak : a.1 = k'
      · have hk : ¬ k' = k := fun hc => ha (hak.trans hc)
        simp [hak, hk]
      · simp only [hak, if_false, ih, ha]
        simp

theorem mget_append_single {α : Type} (m : List (Nat × α)) (k : Nat) (v : α)
    (k' : Nat) :
    mget (m ++ [(k, v)]) k' =
      match mget m k' with
      | some x => some x
      | none => if k = k' then some v else none := by
  induction m with
  | nil => rw [List.nil_append, mget_cons]; by_cases h : k = k' <;> simp [h, mget_nil]
  | cons a as ih =>
    rw [List.cons_append, mget_cons, mget_cons]
    by_cases hak : a.1 = k' <;> simp [hak, ih]

theorem mget_mset_self {α : Type} (m : List (Nat × α)) (k : Nat) (v : α) :
    mget (mset m k v) k = some v := by
  unfold mset
  by_cases h : m.any (fun p => p.1 = k)
  · have hm : mhas m k := h
    rw [if_pos h, mget_replaceList]
    simp [hm]
  · rw [if_neg h, mget_append_single]
    have hm : ¬ (mget m k).isSome := by
      rw [← mhas_iff_mget]; exact h
    have : mget m k = none := by
      cases hg : mget m k
      · rfl
      · rw [hg] at hm; simp at hm
    simp [this]

theorem mget_mset_ne {α : Type} (m : List (Nat × α)) (k k' : Nat) (v : α)
    (h : k' ≠ k) : mget (mset m k v) k' = mget m k' := by
  unfold mset
  by_cases hm : m.any (fun p => p.1 = k)
  · rw [if_pos hm, mget_replaceList, if_neg h]
  · rw [if_neg hm, mget_append_single]
    have : ¬ (k : Nat) = k' := fun hc => h hc.symm
    cases hg : mget m k' <;> simp [this]

theorem mget_mdelete_self {α : Type} (m : List (Nat × α)) (k : Nat) :
    mget (mdelete m k) k = none := by
  unfold mdelete
  induction m with
  | nil => simp [mget_nil]
  | cons a as ih =>
    by_cases ha : a.1 = k
    · simpa [ha] using ih
    · rw [List.filter_cons]
      simpa [ha, mget_cons] using ih

theorem mget_mdelete_ne {α : Type} (m : List (Nat × α)) (k k' : Nat)
    (h : k' ≠ k) : mget (mdelete m k) k' = mget m k' := by
  unfold mdelete
  induction m with
  | nil => simp
  | cons a as ih =>
    rw [List.filter_cons, mget_cons]
    by_cases ha : a.1 = k
    · have ha2 : ¬ a.1 = k' := by rw [ha]; exact fun hc => h hc.symm
      rw [if_neg ha2, if_neg (by simp [ha] : ¬ (decide ¬ a.1 = k) = true)]
      exact ih
    · rw [if_pos (by simp [ha] : (decide ¬ a.1 = k) = true), mget_cons]
      by_cases hak : a.1 = k'
      · rw [if_pos hak, if_pos hak]
      · rw [if_neg hak, if_neg hak]
        exact ih

theorem mem_nsAdd {s : Dom} {x y : Option Nat} :
    x ∈ nsAdd s y ↔ x ∈ s ∨ x = y := by
  unfold nsAdd
  by_cases h : y ∈ s
  · simp only [if_pos h]
    constructor
    · exact Or.inl
    · rintro (hx | rfl)
      · exact hx
      · exact h
  · simp [if_neg h]

theorem nsAdd_nodup {s : Dom} {y : Option Nat} (h : s.Nodup) :
    (nsAdd s y).Nodup := by
  unfold nsAdd
  by_cases hy : y ∈ s
  · simpa [hy]
  · simpa [hy, List.nodup_append] using h

theorem length_nsAdd_le (s : Dom) (y : Option Nat) :
    (nsAdd s y).length ≤ s.length + 1 := by
  unfold nsAdd
  by_cases hy : y ∈ s <;> simp [hy]

theorem mem_foldl_nsAdd (l : Dom) :
    ∀ (acc : Dom) (x : Option Nat),
      x ∈ l.foldl nsAdd acc ↔ x ∈ acc ∨ x ∈ l := by
  induction l with
  | nil => simp
  | cons a as ih =>
    intro acc x
    simp only [List.foldl_cons, ih, mem_nsAdd, List.mem_cons]
    tauto

theorem foldl_nsAdd_nodup (l : Dom) :
    ∀ (acc : Dom), acc.Nodup → (l.foldl nsAdd acc).Nodup := by
  induction l with
  | nil => intro acc h; simpa
  | cons a as ih =>
    intro acc h
    exact ih _ (nsAdd_nodup h)

theorem mem_nsOfList {l : Dom} {x : Option Nat} :
    x ∈ nsOfList l ↔ x ∈ l := by
  unfold nsOfList
  simp [mem_foldl_nsAdd]

theorem nsOfList_nodup (l : Dom) : (nsOfList l).Nodup :=
  foldl_nsAdd_nodup l [] List.nodup_nil

theorem length_nsOfList_le (l : Dom) : (nsOfList l).length ≤ l.length := by
  unfold nsOfList
  suffices h : ∀ acc : Dom, (l.foldl nsAdd acc).length ≤ acc.length + l.length by
    simpa using h []
  induction l with
  | nil => simp
  | cons a as ih =>
    intro acc
    calc ((a :: as).foldl nsAdd acc).length
        ≤ (nsAdd acc a).length + as.length := ih _
      _ ≤ acc.length + 1 + as.length := by
          exact Nat.add_le_add_right (length_nsAdd_le _ _) _
      _ = acc.length + (a :: as).length := by simp; ring

theorem mem_intersectSets {a b : Dom} {x : Option Nat} :
    x ∈ intersectSets a b ↔ x ∈ a ∧ x ∈ b := by
  unfold intersectSets
  suffices h : ∀ acc : Dom,
      x ∈ a.foldl (fun acc e => if e ∈ b then nsAdd acc e else acc) acc ↔
        x ∈ acc ∨ (x ∈ a ∧ x ∈ b) by
    simpa using h []
  induction a with
  | nil => simp
  | cons c cs ih =>
    intro acc
    by_cases hc : c ∈ b
    · simp only [List.foldl_cons, if_pos hc, ih, mem_nsAdd, List.mem_cons]
      constructor
      · rintro ((h | rfl) | h)
        · exact Or.inl h
        · exact Or.inr ⟨Or.inl rfl, hc⟩
        · exact Or.inr ⟨Or.inr h.1, h.2⟩
      · rintro (h | ⟨(rfl | h), hb⟩)
        · exact Or.inl (Or.inl h)
        · exact Or.inl (Or.inr rfl)
        · exact Or.inr ⟨h, hb⟩
    · simp only [List.foldl_cons, if_neg hc, ih, List.mem_cons]
      constructor
      · rintro (h | h)
        · exact Or.inl h
        · exact Or.inr ⟨Or.inr h.1, h.2⟩
      · rintro (h | ⟨(rfl | h), hb⟩)
        · exact Or.inl h
        · exact absurd hb hc
        · exact Or.inr ⟨h, hb⟩

theorem intersectSets_nodup (a b : Dom) : (intersectSets a b).Nodup := by
  unfold intersectSets
  suffices h : ∀ acc : Dom, acc.Nodup →
      (a.foldl (fun acc e => if e ∈ b then nsAdd acc e else acc) acc).Nodup by
    exact h [] List.nodup_nil
  induction a with
  | nil => intro acc h; simpa
  | cons c cs ih =>
    intro acc h
    by_cases hc : c ∈ b
    · simpa [hc] using ih _ (nsAdd_nodup h)
    · simpa [hc] using ih _ h

theorem isSubSetOf_iff {a b : Dom} :
    isSubSetOf a b = true ↔ ∀ x ∈ a, x ∈ b := by
  unfold isSubSetOf
  simp

/-! ### Concrete engine states used by individual claims -/

/-- An engine state whose minimum-entropy uncollapsed cell is cell index 0
(1×1 grid, one uncollapsed cell 0 with entropy 1 and domain `{0}`, one
pattern of frequency 1). -/
def stIdxZero : EngineSt :=
  ⟨[(0, [some 0])], [(0, [[some 0], [some 0], [some 0], [some 0]])],
   [(0, 1)], [[[[1, 2, 3, 4]]]], [1], none, none⟩

/-- An engine state (2×1 grid, patterns 0, 1, 2) in which a step collapses
cell 1 to pattern 0, then propagation first narrows cell 0's domain from
`{1, 2}` to `{1}` through the Left direction and then hits an empty
intersection on the Right direction (`adjacency[0][Right] = {2}`). -/
def stContra : EngineSt :=
  ⟨[(0, [some 1, some 2]), (1, [some 0, some 1])],
   [(0, [[some 1], [some 2], [], []]), (1, [[], [], [], []]),
    (2, [[], [], [], []])],
   [(0, 2), (1, 1)], [], [1, 1], none, none⟩

/-- C2: the claim "`draw` signals Done iff the EntropyIndex is empty, and
otherwise (including when the minimum-entropy cell has index 0) collapses
the selected cell" fails on the code: at `stIdxZero` the EntropyIndex is
non-empty, yet `draw` returns `null` (the Done outcome) and leaves the state
untouched, because `selectRandomPattern`'s `if (entropyMin)` treats the cell
index 0 as falsy. -/
theorem draw_returns_done_at_min_cell_zero :
    (draw 1 1 ⟨0, fun _ => 0⟩ stIdxZero).1 = DrawRet.rnull ∧
    (draw 1 1 ⟨0, fun _ => 0⟩ stIdxZero).2 = stIdxZero ∧
    stIdxZero.entropy ≠ [] := by decide

/-- C3: a step that detects a contradiction returns with the live state
already mutated and not rolled back: at `stContra` the step collapses cell 1
(domain set to `{0}`, entropy key deleted) and narrows cell 0 (visited
earlier during the same propagation) from `{1, 2}` to `{1}` with its entropy
rewritten, before the empty intersection aborts the step with the
contradiction outcome — and all those mutations are still visible in the
returned state. -/
theorem draw_contradiction_leaves_mutations :
    (draw 2 1 ⟨0, fun _ => 0⟩ stContra).1 = DrawRet.rundef ∧
    (draw 2 1 ⟨0, fun _ => 0⟩ stContra).2.wave =
      [(0, [some 1]), (1, [some 0])] ∧
    (draw 2 1 ⟨0, fun _ => 0⟩ stContra).2.entropy = [(0, 1)] ∧
    mget stContra.wave 0 = some [some 1, some 2] ∧
    mget stContra.entropy 0 = some 2 ∧
    mget stContra.wave 1 = some [some 0, some 1] ∧
    mget stContra.entropy 1 = some 1 := by
  norm_num [draw, stContra, findMinEntropyKey, selectRandomPattern, mget, mset,
    mdelete, mhas, propagate, processDir, processDirs, neighborIndex,
    intersectSets, nsAdd, nsOfList, isSubSetOf, potential, dirIndex,
    directions]

/-- C7: during propagation the neighbour's x coordinate wraps modulo W (the
Left neighbour of a cell in column 0 is in column W−1), while y is
bounds-checked and does not wrap: the Up direction is skipped at y = 0 and
the Down direction at y = H−1, and a skipped direction leaves the state
untouched and pushes nothing. -/
theorem neighbor_wrap_x_bounded_y (W H c : Nat) (hW : 1 ≤ W) :
    (c % W = 0 → c / W < H →
      neighborIndex W H c (-1, 0) = some ((W - 1) + (c / W) * W)) ∧
    (c / W = 0 → neighborIndex W H c (0, -1) = none) ∧
    (1 ≤ H → c / W = H - 1 → neighborIndex W H c (0, 1) = none) ∧
    (∀ (st : EngineSt) (ctr : Nat) (jit : Nat → ℚ) (d : Int × Int),
      neighborIndex W H c d = none →
      processDir W H jit c st ctr d = .ok st [] ctr) := by
  refine ⟨?_, ?_, ?_, ?_⟩
  · intro hx hy
    unfold neighborIndex
    have hc : ((c : Int) % (W : Int)) = 0 := by
      have h := congrArg (Nat.cast : Nat → Int) hx
      push_cast at h
      simpa using h
    have hdiv : (c : Int) / (W : Int) = ((c / W : Nat) : Int) := by
      exact_mod_cast rfl
    have hx1 : ((0 : Int) + (-1) + (W : Int)) % (W : Int) = (W : Int) - 1 := by
      have h1 : (0 : Int) + (-1) + (W : Int) = (W : Int) - 1 := by ring
      rw [h1]
      refine Int.emod_eq_of_lt ?_ ?_
      · omega
      · omega
    have hy0 : (0 : Int) ≤ ((c / W : Nat) : Int) + 0 := by positivity
    have hyH : ((c / W : Nat) : Int) + 0 < (H : Int) := by
      simpa using (by exact_mod_cast hy : ((c / W : Nat) : Int) < (H : Int))
    simp only [hc, hdiv]
    rw [if_pos ⟨hy0, hyH⟩]
    congr 1
    have hxt : (((0 : Int) + (-1) + (W : Int)) % (W : Int)).toNat = W - 1 := by
      rw [hx1]
      omega
    have hyt : (((c / W : Nat) : Int) + 0).toNat = c / W := by
      omega
    rw [hxt, hyt]
  · intro h0
    unfold neighborIndex
    have hdiv : (c : Int) / (W : Int) = 0 := by
      have h := congrArg (Nat.cast : Nat → Int) h0
      push_cast at h
      simpa using h
    rw [if_neg]
    rw [hdiv]
    omega
  · intro hH hdown
    unfold neighborIndex
    have hdiv : (c : Int) / (W : Int) = ((H : Int) - 1) := by
      have h1 : ((c / W : Nat) : Int) = ((H - 1 : Nat) : Int) := by rw [hdown]
      have h2 : (c : Int) / (W : Int) = ((c / W : Nat) : Int) := by
        exact_mod_cast rfl
      rw [h2, h1]
      omega
    rw [if_neg]
    rw [hdiv]
    omega
  · intro st ctr jit d hnone
    unfold processDir
    rw [hnone]

/-- Witness: on a 3×2 grid, cell 3 (column 0, row 1) has its Left neighbour
at cell 5 (column 2, row 1); cell 1 (row 0) has no Up neighbour; cell 4
(row 1 = H−1) has no Down neighbour, and that skip leaves the state as is. -/
theorem neighbor_wrap_x_bounded_y_witness :
    neighborIndex 3 2 3 (-1, 0) = some 5 ∧
    neighborIndex 3 2 1 (0, -1) = none ∧
    neighborIndex 3 2 4 (0, 1) = none ∧
    processDir 3 2 (fun _ => 0) 4 stIdxZero 0 (0, 1) = .ok stIdxZero [] 0 := by
  refine ⟨?_, ?_, ?_, ?_⟩
  · have h := (neighbor_wrap_x_bounded_y 3 2 3 (by norm_num)).1
      (by norm_num) (by norm_num)
    simpa using h
  · exact (neighbor_wrap_x_bounded_y 3 2 1 (by norm_num)).2.1 (by norm_num)
  · exact (neighbor_wrap_x_bounded_y 3 2 4 (by norm_num)).2.2.1
      (by norm_num) (by norm_num)
  · refine (neighbor_wrap_x_bounded_y 3 2 4 (by norm_num)).2.2.2
      stIdxZero 0 (fun _ => 0) (0, 1) ?_
    exact (neighbor_wrap_x_bounded_y 3 2 4 (by norm_num)).2.2.1
      (by norm_num) (by norm_num)

/-- C1: whenever propagation inside a step reaches an empty intersection
(the inner `propagate` run ends in `contra`), `draw` returns the `rundef`
outcome (the source's bare `return;`, i.e. `undefined`) — and exactly then;
that outcome is a distinct value, different from the Done outcome (`null`)
and from every successful Collapsed result record, so the step never claims
success on a contradiction. -/
theorem draw_contradiction_outcome_distinct (W H : Nat) (rng : Rng)
    (st : EngineSt) :
    ((draw W H rng st).1 = DrawRet.rundef ↔
      ∃ m selId st2,
        findMinEntropyKey st.entropy = some m ∧
        selectRandomPattern st.wave (some m) st.frequencies rng.pick =
          some selId ∧
        propagate W H rng.jitter (potential (mset st.wave m [selId]) + 1)
          { st with
            wave := mset st.wave m [selId],
            entropy := mdelete st.entropy m } 0 [m] = PropOut.contra st2) ∧
    DrawRet.rundef ≠ DrawRet.rnull ∧
    (∀ (p : Pat) (m : Nat) (x y : Option Nat),
      DrawRet.rundef ≠ DrawRet.rsuccess p m x y) := by
  refine ⟨?_, by simp, by simp⟩
  by_cases h : st.entropy.length = 0
  · have hnil : st.entropy = [] := List.length_eq_zero.mp h
    constructor
    · intro hd
      exfalso
      simp [draw, h] at hd
    · rintro ⟨m, selId, st2, hm, -, -⟩
      rw [hnil] at hm
      simp [findMinEntropyKey] at hm
  · rcases hm : findMinEntropyKey st.entropy with - | m
    · constructor
      · intro hd
        simp [draw, h, hm] at hd
      · rintro ⟨m, selId, st2, hm2, -, -⟩
        exact absurd hm2 (by simp)
    · rcases hs : selectRandomPattern st.wave (some m) st.frequencies rng.pick
        with - | selId
      · constructor
        · intro hd
          simp [draw, h, hm, hs] at hd
        · rintro ⟨m2, selId2, st2, hm2, hs2, -⟩
          have hmm : m2 = m := (Option.some.inj hm2).symm
          subst hmm
          rw [hs] at hs2
          exact absurd hs2 (by simp)
      · rcases hp : propagate W H rng.jitter
            (potential (mset st.wave m [selId]) + 1)
            { st with
              wave := mset st.wave m [selId],
              entropy := mdelete st.entropy m } 0 [m] with st2 | st2 | st2
        · constructor
          · intro _
            exact ⟨m, selId, st2, rfl, hs, hp⟩
          · intro _
            simp [draw, h, hm, hs, hp]
        · constructor
          · intro hd
            exfalso
            cases selId with
            | none => simp [draw, h, hm, hs, hp] at hd
            | some n =>
              rcases hpat : st2.patterns[n]? with - | pat
              · simp [draw, h, hm, hs, hp, hpat] at hd
              · simp [draw, h, hm, hs, hp, hpat] at hd
          · rintro ⟨m2, selId2, st3, hm2, hs2, hp2⟩
            have hmm : m2 = m := (Option.some.inj hm2).symm
            subst hmm
            rw [hs] at hs2
            have hss : selId2 = selId := (Option.some.inj hs2).symm
            subst hss
            rw [hp] at hp2
            exact absurd hp2 (by simp)
        · constructor
          · intro hd
            simp [draw, h, hm, hs, hp] at hd
          · rintro ⟨m2, selId2, st3, hm2, hs2, hp2⟩
            have hmm : m2 = m := (Option.some.inj hm2).symm
            subst hmm
            rw [hs] at hs2
            have hss : selId2 = selId := (Option.some.inj hs2).symm
            subst hss
            rw [hp] at hp2
            exact absurd hp2 (by simp)

/-! ### Adjacency-table symmetry (C4) -/

/-- Pattern id `j` belongs to `adjacency[i][dir]`. -/
def memAdj (adj : List (Nat × List Dom)) (i dir j : Nat) : Prop :=
  ∃ sets, mget adj i = some sets ∧ some j ∈ sets.getD dir []

/-- Every key below `P` holds an array of four direction sets. -/
def AdjKeys (P : Nat) (adj : List (Nat × List Dom)) : Prop :=
  ∀ k, k < P → ∃ sets, mget adj k = some sets ∧ sets.length = 4

theorem mget_range_map {α : Type} (f : Nat → α) (n k : Nat) :
    mget ((List.range n).map (fun i => (i, f i))) k =
      if k < n then some (f k) else none := by
  induction n with
  | zero => simp [mget_nil]
  | succ n ih =>
    rw [List.range_succ, List.map_append, List.map_cons, List.map_nil,
      mget_append_single, ih]
    by_cases h1 : k < n
    · simp [h1, Nat.lt_succ_of_lt h1]
    · by_cases h2 : k = n
      · subst h2
        simp [h1]
      · have : ¬ k < n + 1 := by omega
        have hnk : ¬ n = k := fun hc => h2 hc.symm
        simp [h1, this, hnk]

theorem addAdj_keys {P : Nat} {adj : List (Nat × List Dom)} (k dir v : Nat)
    (h : AdjKeys P adj) : AdjKeys P (addAdj adj k dir v) := by
  intro a ha
  unfold addAdj
  cases hk : mget adj k with
  | none => exact h a ha
  | some sets =>
    by_cases hak : a = k
    · subst hak
      refine ⟨_, mget_mset_self _ _ _, ?_⟩
      obtain ⟨sets0, hs0, hl0⟩ := h a ha
      rw [hk] at hs0
      cases hs0
      simpa using hl0
    · rw [mget_mset_ne _ _ _ _ hak]
      exact h a ha

theorem getD_set_self {α : Type} (l : List α) (i : Nat) (x d : α)
    (h : i < l.length) : (l.set i x).getD i d = x := by
  simp [List.getD, List.getElem?_set_self, h]

theorem getD_set_ne {α : Type} (l : List α) (i j : Nat) (x d : α)
    (h : j ≠ i) : (l.set i x).getD j d = l.getD j d := by
  simp [List.getD, List.getElem?_set_ne (Ne.symm h)]

theorem memAdj_addAdj {P : Nat} {adj : List (Nat × List Dom)} {k dir v : Nat}
    (hkeys : AdjKeys P adj) (hk : k < P) (hdir : dir < 4) (a d b : Nat) :
    memAdj (addAdj adj k dir v) a d b ↔
      memAdj adj a d b ∨ (a = k ∧ d = dir ∧ b = v) := by
  obtain ⟨sets, hsets, hlen⟩ := hkeys k hk
  unfold addAdj
  rw [hsets]
  unfold memAdj
  by_cases hak : a = k
  · subst hak
    rw [mget_mset_self, hsets]
    constructor
    · rintro ⟨s, hs, hmem⟩
      cases hs
      by_cases hd : d = dir
      · subst hd
        rw [getD_set_self _ _ _ _ (by omega)] at hmem
        rw [mem_nsAdd] at hmem
        rcases hmem with hmem | hmem
        · exact Or.inl ⟨sets, rfl, hmem⟩
        · exact Or.inr ⟨rfl, rfl, by simpa using hmem⟩
      · rw [getD_set_ne _ _ _ _ _ hd] at hmem
        exact Or.inl ⟨sets, rfl, hmem⟩
    · rintro (⟨s, hs, hmem⟩ | ⟨-, rfl, rfl⟩)
      · cases hs
        refine ⟨_, rfl, ?_⟩
        by_cases hd : d = dir
        · subst hd
          rw [getD_set_self _ _ _ _ (by omega)]
          rw [mem_nsAdd]
          exact Or.inl hmem
        · rw [getD_set_ne _ _ _ _ _ hd]
          exact hmem
      · refine ⟨_, rfl, ?_⟩
        rw [getD_set_self _ _ _ _ (by omega)]
        rw [mem_nsAdd]
        exact Or.inr rfl
  · rw [mget_mset_ne _ _ _ _ hak]
    constructor
    · rintro ⟨s, hs, hmem⟩
      exact Or.inl ⟨s, hs, hmem⟩
    · rintro (⟨s, hs, hmem⟩ | ⟨hc, -, -⟩)
      · exact ⟨s, hs, hmem⟩
      · exact absurd hc hak

/-- The two symmetry invariants of the adjacency table. -/
def AdjSym (adj : List (Nat × List Dom)) : Prop :=
  (∀ i j, memAdj adj i 0 j ↔ memAdj adj j 1 i) ∧
  (∀ i j, memAdj adj i 2 j ↔ memAdj adj j 3 i)

theorem adjacencyStep_preserves {P : Nat} {adj : List (Nat × List Dom)}
    (pats : List Pat) (N : Nat) (i j : Nat) (hi : i < P) (hj : j < P)
    (hkeys : AdjKeys P adj) (hsym : AdjSym adj) :
    AdjKeys P (adjacencyStep pats N adj (i, j)) ∧
      AdjSym (adjacencyStep pats N adj (i, j)) := by
  unfold adjacencyStep
  simp only []
  set ph := isHorizontallyAdjacent (pats.getD i []) (pats.getD j []) N with hph
  set pv := isVerticallyAdjacent (pats.getD i []) (pats.getD j []) N with hpv
  have step1 :
      ∀ (adj' : List (Nat × List Dom)), AdjKeys P adj' → AdjSym adj' →
        AdjKeys P (addAdj (addAdj adj' i 0 j) j 1 i) ∧
          AdjSym (addAdj (addAdj adj' i 0 j) j 1 i) := by
    intro adj' hk hs
    have hk1 : AdjKeys P (addAdj adj' i 0 j) := addAdj_keys _ _ _ hk
    have hk2 : AdjKeys P (addAdj (addAdj adj' i 0 j) j 1 i) := addAdj_keys _ _ _ hk1
    refine ⟨hk2, ?_, ?_⟩
    · intro a b
      rw [memAdj_addAdj hk1 hj (by omega), memAdj_addAdj hk1 hj (by omega),
        memAdj_addAdj hk hi (by omega), memAdj_addAdj hk hi (by omega)]
      have h0 := hs.1 a b
      constructor
      · rintro ((h | ⟨rfl, -, rfl⟩) | ⟨rfl, h1, -⟩)
        · exact Or.inl (Or.inl (h0.mp h))
        · exact Or.inr ⟨rfl, rfl, rfl⟩
        · exact absurd h1 (by omega)
      · rintro ((h | ⟨rfl, h1, -⟩) | ⟨rfl, -, rfl⟩)
        · exact Or.inl (Or.inl (h0.mpr h))
        · exact absurd h1 (by omega)
        · exact Or.inl (Or.inr ⟨rfl, rfl, rfl⟩)
    · intro a b
      rw [memAdj_addAdj hk1 hj (by omega), memAdj_addAdj hk1 hj (by omega),
        memAdj_addAdj hk hi (by omega), memAdj_addAdj hk hi (by omega)]
      have h0 := hs.2 a b
      constructor
      · rintro ((h | ⟨-, h1, -⟩) | ⟨-, h1, -⟩)
        · exact Or.inl (Or.inl (h0.mp h))
        · exact absurd h1 (by omega)
        · exact absurd h1 (by omega)
      · rintro ((h | ⟨-, h1, -⟩) | ⟨-, h1, -⟩)
        · exact Or.inl (Or.inl (h0.mpr h))
        · exact absurd h1 (by omega)
        · exact absurd h1 (by omega)
  have step2 :
      ∀ (adj' : List (Nat × List Dom)), AdjKeys P adj' → AdjSym adj' →
        AdjKeys P (addAdj (addAdj adj' i 2 j) j 3 i) ∧
          AdjSym (addAdj (addAdj adj' i 2 j) j 3 i) := by
    intro adj' hk hs
    have hk1 : AdjKeys P (addAdj adj' i 2 j) := addAdj_keys _ _ _ hk
    have hk2 : AdjKeys P (addAdj (addAdj adj' i 2 j) j 3 i) := addAdj_keys _ _ _ hk1
    refine ⟨hk2, ?_, ?_⟩
    · intro a b
      rw [memAdj_addAdj hk1 hj (by omega), memAdj_addAdj hk1 hj (by omega),
        memAdj_addAdj hk hi (by omega), memAdj_addAdj hk hi (by omega)]
      have h0 := hs.1 a b
      constructor
      · rintro ((h | ⟨-, h1, -⟩) | ⟨-, h1, -⟩)
        · exact Or.inl (Or.inl (h0.mp h))
        · exact absurd h1 (by omega)
        · exact absurd h1 (by omega)
      · rintro ((h | ⟨-, h1, -⟩) | ⟨-, h1, -⟩)
        · exact Or.inl (Or.inl (h0.mpr h))
        · exact absurd h1 (by omega)
        · exact absurd h1 (by omega)
    · intro a b
      rw [memAdj_addAdj hk1 hj (by omega), memAdj_addAdj hk1 hj (by omega),
        memAdj_addAdj hk hi (by omega), memAdj_addAdj hk hi (by omega)]
      have h0 := hs.2 a b
      constructor
      · rintro ((h | ⟨rfl, -, rfl⟩) | ⟨rfl, h1, -⟩)
        · exact Or.inl (Or.inl (h0.mp h))
        · exact Or.inr ⟨rfl, rfl, rfl⟩
        · exact absurd h1 (by omega)
      · rintro ((h | ⟨rfl, h1, -⟩) | ⟨rfl, -, rfl⟩)
        · exact Or.inl (Or.inl (h0.mpr h))
        · exact absurd h1 (by omega)
        · exact Or.inl (Or.inr ⟨rfl, rfl, rfl⟩)
  cases hb : ph with
  | true =>
    cases hbv : pv with
    | true =>
      obtain ⟨hk1, hs1⟩ := step1 adj hkeys hsym
      simpa using step2 _ hk1 hs1
    | false =>
      simpa using step1 adj hkeys hsym
  | false =>
    cases hbv : pv with
    | true =>
      simpa using step2 adj hkeys hsym
    | false =>
      simpa using ⟨hkeys, hsym⟩

theorem buildAdjacencies_foldl {P : Nat} (pats : List Pat) (N : Nat) :
    ∀ (l : List (Nat × Nat)) (adj : List (Nat × List Dom)),
      (∀ p ∈ l, p.1 < P ∧ p.2 < P) → AdjKeys P adj → AdjSym adj →
      AdjKeys P (l.foldl (adjacencyStep pats N) adj) ∧
        AdjSym (l.foldl (adjacencyStep pats N) adj) := by
  intro l
  induction l with
  | nil => intro adj _ hk hs; exact ⟨hk, hs⟩
  | cons p ps ih =>
    intro adj hmem hk hs
    have hp := hmem p (List.mem_cons_self p ps)
    have hstep := adjacencyStep_preserves pats N p.1 p.2 hp.1 hp.2 hk hs
    rw [List.foldl_cons]
    exact ih _ (fun q hq => hmem q (List.mem_cons_of_mem p hq))
      (by simpa using hstep.1) (by simpa using hstep.2)

theorem buildAdjacencies_sym (pats : List Pat) (N : Nat) :
    AdjSym (buildAdjacencies pats N) := by
  unfold buildAdjacencies
  have hinit_keys : AdjKeys pats.length (adjacencyInit pats.length) := by
    intro k hk
    unfold adjacencyInit
    rw [mget_range_map]
    refine ⟨[[], [], [], []], ?_, by simp⟩
    simp [hk]
  have hinit_sym : AdjSym (adjacencyInit pats.length) := by
    constructor <;>
    · intro a b
      unfold memAdj adjacencyInit
      rw [mget_range_map, mget_range_map]
      by_cases ha : a < pats.length <;> by_cases hb : b < pats.length <;>
        simp [ha, hb, List.getD]
  exact (buildAdjacencies_foldl pats N _ _
    (by
      intro p hp
      simp only [List.mem_flatMap, List.mem_map, List.mem_range] at hp
      obtain ⟨i, hi, j, hj, rfl⟩ := hp
      exact ⟨hi, hj⟩)
    hinit_keys hinit_sym).2

/-- C4: for the adjacency table produced by `setup`, for all pattern ids
`i`, `j`: `j ∈ adjacency[i][Left] ↔ i ∈ adjacency[j][Right]` and
`j ∈ adjacency[i][Up] ↔ i ∈ adjacency[j][Down]` (direction indices
0 = Left, 1 = Right, 2 = Up, 3 = Down, as in the source). -/
theorem setup_adjacency_symmetric (outputDimWidth outputDimHeight patternDim : Nat)
    (imageData : List Nat) (imageWidth imageHeight canvasWidth canvasHeight : Nat)
    (seed : Nat) (i j : Nat) :
    (memAdj (setup outputDimWidth outputDimHeight patternDim imageData
        imageWidth imageHeight canvasWidth canvasHeight seed).adjacencies i 0 j ↔
      memAdj (setup outputDimWidth outputDimHeight patternDim imageData
        imageWidth imageHeight canvasWidth canvasHeight seed).adjacencies j 1 i) ∧
    (memAdj (setup outputDimWidth outputDimHeight patternDim imageData
        imageWidth imageHeight canvasWidth canvasHeight seed).adjacencies i 2 j ↔
      memAdj (setup outputDimWidth outputDimHeight patternDim imageData
        imageWidth imageHeight canvasWidth canvasHeight seed).adjacencies j 3 i) := by
  have hadj : (setup outputDimWidth outputDimHeight patternDim imageData
      imageWidth imageHeight canvasWidth canvasHeight seed).adjacencies =
      buildAdjacencies
        ((dedupFold (allPatterns patternDim imageData imageWidth imageHeight)).map
          (fun q => q.1)) patternDim := rfl
  rw [hadj]
  have h := buildAdjacencies_sym
    ((dedupFold (allPatterns patternDim imageData imageWidth imageHeight)).map
      (fun q => q.1)) patternDim
  exact ⟨h.1 i j, h.2 i j⟩

/-! ### Propagation accounting: potential, key sets, non-empty domains -/

theorem potential_cons (k : Nat) (d : Dom) (w : List (Nat × Dom)) :
    potential ((k, d) :: w) = d.length + potential w := by
  simp [potential]

theorem map_replace_id {α : Type} (w : List (Nat × α)) (n : Nat) (v : α)
    (h : ∀ p ∈ w, ¬ p.1 = n) :
    w.map (fun p => if p.1 = n then (n, v) else p) = w := by
  induction w with
  | nil => rfl
  | cons a as ih =>
    rw [List.map_cons, if_neg (h a (List.mem_cons_self a as)),
      ih (fun p hp => h p (List.mem_cons_of_mem a hp))]

theorem potential_mset_exists (w : List (Nat × Dom)) (n : Nat) (v dcur : Dom)
    (hNd : (w.map Prod.fst).Nodup) (hget : mget w n = some dcur) :
    potential (mset w n v) + dcur.length = potential w + v.length := by
  have hhas : mhas w n := by
    rw [mhas_iff_mget, hget]
    rfl
  unfold mset
  unfold mhas at hhas
  rw [if_pos hhas]
  clear hhas
  induction w with
  | nil => simp [mget_nil] at hget
  | cons a as ih =>
    rw [List.map_cons, List.nodup_cons] at hNd
    rw [mget_cons] at hget
    by_cases ha : a.1 = n
    · rw [if_pos ha] at hget
      cases hget
      rw [List.map_cons, if_pos ha]
      have hrest : ∀ p ∈ as, ¬ p.1 = n := by
        intro p hp hpn
        exact hNd.1 (by
          rw [← ha, ← hpn] at *
          exact List.mem_map.mpr ⟨p, hp, rfl⟩)
      rw [map_replace_id as n v hrest, potential_cons, potential_cons]
      cases a
      simp only at ha
      subst ha
      omega
    · rw [if_neg ha] at hget
      rw [List.map_cons, if_neg ha]
      cases a with
      | mk k dv =>
        rw [potential_cons, potential_cons]
        have := ih hNd.2 hget
        omega

theorem keys_mset_has {α : Type} (w : List (Nat × α)) (k : Nat) (v : α)
    (h : mhas w k = true) :
    (mset w k v).map Prod.fst = w.map Prod.fst := by
  unfold mset mhas at *
  rw [if_pos h, List.map_map]
  apply List.map_congr_left
  intro p _
  by_cases hpk : p.1 = k <;> simp [hpk]

theorem keys_mset_nodup {α : Type} (w : List (Nat × α)) (k : Nat) (v : α)
    (h : (w.map Prod.fst).Nodup) : ((mset w k v).map Prod.fst).Nodup := by
  by_cases hh : mhas w k
  · rw [keys_mset_has w k v hh]
    exact h
  · unfold mset
    rw [if_neg (by simpa [mhas] using hh), List.map_append]
    have hk : k ∉ w.map Prod.fst := by
      intro hc
      apply hh
      unfold mhas
      rw [List.any_eq_true]
      obtain ⟨p, hp, hpk⟩ := List.mem_map.mp hc
      exact ⟨p, hp, by simp [hpk]⟩
    rw [List.nodup_append]
    refine ⟨h, List.nodup_singleton k, ?_⟩
    intro a ha hak
    rw [List.map_singleton, List.mem_singleton] at hak
    subst hak
    exact hk ha

/-- Every domain stored in the wave is non-empty. -/
def WaveNonempty (w : List (Nat × Dom)) : Prop :=
  ∀ c d, mget w c = some d → d ≠ []

theorem waveNonempty_mset {w : List (Nat × Dom)} {n : Nat} {v : Dom}
    (hw : WaveNonempty w) (hv : v ≠ []) : WaveNonempty (mset w n v) := by
  intro c d hc
  by_cases hcn : c = n
  · subst hcn
    rw [mget_mset_self] at hc
    cases hc
    exact hv
  · rw [mget_mset_ne _ _ _ _ hcn] at hc
    exact hw c d hc

theorem strict_shrink {inter avail : Dom} (hIntNd : inter.Nodup)
    (hSub : ∀ x ∈ inter, x ∈ avail) (hAvNd : avail.Nodup)
    (e : Option Nat) (he : e ∈ avail) (hne : e ∉ inter) :
    inter.length + 1 ≤ avail.length := by
  classical
  have h1 : inter.toFinset.card = inter.length :=
    List.toFinset_card_of_nodup hIntNd
  have h2 : avail.toFinset.card = avail.length :=
    List.toFinset_card_of_nodup hAvNd
  have hsub : inter.toFinset ⊆ avail.toFinset.erase e := by
    intro x hx
    rw [List.mem_toFinset] at hx
    refine Finset.mem_erase.mpr ⟨?_, List.mem_toFinset.mpr (hSub x hx)⟩
    rintro rfl
    exact hne hx
  have hle := Finset.card_le_card hsub
  have hcard : (avail.toFinset.erase e).card = avail.toFinset.card - 1 :=
    Finset.card_erase_of_mem (List.mem_toFinset.mpr he)
  have hpos : 0 < avail.toFinset.card :=
    Finset.card_pos.mpr ⟨e, List.mem_toFinset.mpr he⟩
  omega

/-- Full characterisation of one direction step: it either skips (state
unchanged, nothing pushed), aborts with the unchanged state on an empty
intersection, or narrows neighbour `n`'s domain to a non-empty strictly
smaller set, updates `n`'s entropy and pushes `n`. -/
theorem processDir_spec (W H : Nat) (jit : Nat → ℚ) (cur : Nat)
    (st : EngineSt) (ctr : Nat) (d : Int × Int) :
    processDir W H jit cur st ctr d = .ok st [] ctr ∨
    processDir W H jit cur st ctr d = .contra st ∨
    (∃ n dcur inter,
      processDir W H jit cur st ctr d =
        .ok { st with
              wave := mset st.wave n inter,
              entropy := mset st.entropy n
                ((inter.length : ℚ) - jit ctr / 10) } [n] (ctr + 1) ∧
      mget st.wave n = some dcur ∧
      inter ≠ [] ∧
      inter.length + 1 ≤ dcur.length) := by
  unfold processDir
  rcases hn : neighborIndex W H cur d with - | n
  · exact Or.inl rfl
  · by_cases he : mhas st.entropy n
    · simp only [he, if_true]
      set possible : Dom :=
        (match mget st.wave cur with
        | none => []
        | some currentCellPatterns =>
          currentCellPatterns.foldl
            (fun acc idP =>
              match idP with
              | none => acc
              | some p =>
                match mget st.adjacencies p with
                | none => acc
                | some adjacencyMaps =>
                  (adjacencyMaps.getD (dirIndex d) []).foldl nsAdd acc)
            []) with hposs
      set avail : Dom := nsOfList ((mget st.wave n).getD []) with havail
      by_cases hsub : isSubSetOf avail possible
      · simp only [hsub, if_true]
        left
        trivial
      · simp only [hsub, if_false]
        set inter := intersectSets possible avail with hinter
        by_cases hlen : inter.length = 0
        · simp only [hlen, if_true]
          right
          left
          trivial
        · simp only [hlen, if_false]
          refine Or.inr (Or.inr ?_)
          obtain ⟨e, heav, henp⟩ : ∃ e ∈ avail, e ∉ possible := by
            by_contra hc
            push_neg at hc
            exact hsub (isSubSetOf_iff.mpr hc)
          have hdcur : ∃ dcur, mget st.wave n = some dcur := by
            cases hget : mget st.wave n with
            | none =>
              exfalso
              rw [havail, hget] at heav
              simp [nsOfList] at heav
            | some dcur => exact ⟨dcur, rfl⟩
          obtain ⟨dcur, hget⟩ := hdcur
          refine ⟨n, dcur, inter, rfl, hget, ?_, ?_⟩
          · intro hnil
            rw [hnil] at hlen
            simp at hlen
          · have hbound : inter.length + 1 ≤ avail.length := by
              refine strict_shrink (hinter ▸ intersectSets_nodup _ _)
                ?_ (havail ▸ nsOfList_nodup _) e heav ?_
              · intro x hx
                rw [hinter] at hx
                exact (mem_intersectSets.mp hx).2
              · intro hc
                rw [hinter] at hc
                exact henp (mem_intersectSets.mp hc).1
            have hav_le : avail.length ≤ dcur.length := by
              rw [havail, hget]
              exact length_nsOfList_le dcur
            omega
    · simp only [he, if_false]
      exact Or.inl rfl

theorem processDirs_nil (W H : Nat) (jit : Nat → ℚ) (cur : Nat)
    (st : EngineSt) (ctr : Nat) :
    processDirs W H jit cur st ctr [] = .ok st [] ctr := rfl

theorem processDirs_cons_contra {W H : Nat} {jit : Nat → ℚ} {cur : Nat}
    {st st1 : EngineSt} {ctr : Nat} {d : Int × Int} (ds : List (Int × Int))
    (h : processDir W H jit cur st ctr d = .contra st1) :
    processDirs W H jit cur st ctr (d :: ds) = .contra st1 := by
  unfold processDirs
  rw [h]

theorem processDirs_cons_ok {W H : Nat} {jit : Nat → ℚ} {cur : Nat}
    {st st1 : EngineSt} {ctr c1 : Nat} {p1 : List Nat} {d : Int × Int}
    (ds : List (Int × Int))
    (h : processDir W H jit cur st ctr d = .ok st1 p1 c1) :
    processDirs W H jit cur st ctr (d :: ds) =
      match processDirs W H jit cur st1 c1 ds with
      | .contra st2 => .contra st2
      | .ok st2 p2 c2 => .ok st2 (p1 ++ p2) c2 := by
  conv_lhs => unfold processDirs
  rw [h]

theorem processDirs_ok_facts {W H : Nat} {jit : Nat → ℚ} {cur : Nat} :
    ∀ (dirs : List (Int × Int)) (st : EngineSt) (ctr : Nat)
      (st' : EngineSt) (pushes : List Nat) (ctr' : Nat),
      processDirs W H jit cur st ctr dirs = .ok st' pushes ctr' →
      (st.wave.map Prod.fst).Nodup →
      potential st'.wave + pushes.length ≤ potential st.wave ∧
      (st'.wave.map Prod.fst).Nodup := by
  intro dirs
  induction dirs with
  | nil =>
    intro st ctr st' pushes ctr' h hNd
    rw [processDirs_nil] at h
    cases h
    simp [hNd]
  | cons d ds ih =>
    intro st ctr st' pushes ctr' h hNd
    rcases processDir_spec W H jit cur st ctr d with hd | hd |
      ⟨n, dcur, inter, hd, hget, hne, hlen⟩
    · rw [processDirs_cons_ok ds hd] at h
      rcases hr : processDirs W H jit cur st ctr ds with st2 | ⟨st2, p2, c2⟩
      · rw [hr] at h
        cases h
      · rw [hr] at h
        cases h
        simpa using ih st ctr _ _ _ hr hNd
    · rw [processDirs_cons_contra ds hd] at h
      cases h
    · rw [processDirs_cons_ok ds hd] at h
      set st1 : EngineSt :=
        { st with
          wave := mset st.wave n inter,
          entropy := mset st.entropy n
            ((inter.length : ℚ) - jit ctr / 10) } with hst1
      have hkeys1 : (st1.wave.map Prod.fst).Nodup := by
        rw [hst1]
        exact keys_mset_nodup _ _ _ hNd
      have hpot1 : potential st1.wave + 1 ≤ potential st.wave := by
        have hp := potential_mset_exists st.wave n inter dcur hNd hget
        rw [hst1]
        simp only []
        omega
      rcases hr : processDirs W H jit cur st1 (ctr + 1) ds with st2 | ⟨st2, p2, c2⟩
      · rw [hr] at h
        cases h
      · rw [hr] at h
        cases h
        have hih := ih st1 (ctr + 1) _ _ _ hr hkeys1
        refine ⟨?_, hih.2⟩
        have h1 := hih.1
        simp only [List.length_append, List.length_cons, List.length_nil] at h1 ⊢
        omega

theorem processDirs_waveNonempty {W H : Nat} {jit : Nat → ℚ} {cur : Nat} :
    ∀ (dirs : List (Int × Int)) (st : EngineSt) (ctr : Nat),
      WaveNonempty st.wave →
      (∀ st', processDirs W H jit cur st ctr dirs = .contra st' →
        WaveNonempty st'.wave) ∧
      (∀ st' pushes ctr',
        processDirs W H jit cur st ctr dirs = .ok st' pushes ctr' →
        WaveNonempty st'.wave) := by
  intro dirs
  induction dirs with
  | nil =>
    intro st ctr hw
    constructor
    · intro st' h
      rw [processDirs_nil] at h
      cases h
    · intro st' pushes ctr' h
      rw [processDirs_nil] at h
      cases h
      exact hw
  | cons d ds ih =>
    intro st ctr hw
    rcases processDir_spec W H jit cur st ctr d with hd | hd |
      ⟨n, dcur, inter, hd, hget, hne, hlen⟩
    · constructor
      · intro st' h
        rw [processDirs_cons_ok ds hd] at h
        rcases hr : processDirs W H jit cur st ctr ds with st2 | ⟨st2, p2, c2⟩
        · rw [hr] at h
          cases h
          exact (ih st ctr hw).1 _ hr
        · rw [hr] at h
          cases h
      · intro st' pushes ctr' h
        rw [processDirs_cons_ok ds hd] at h
        rcases hr : processDirs W H jit cur st ctr ds with st2 | ⟨st2, p2, c2⟩
        · rw [hr] at h
          cases h
        · rw [hr] at h
          cases h
          exact (ih st ctr hw).2 _ _ _ hr
    · constructor
      · intro st' h
        rw [processDirs_cons_contra ds hd] at h
        cases h
        exact hw
      · intro st' pushes ctr' h
        rw [processDirs_cons_contra ds hd] at h
        cases h
    · have hw1 : WaveNonempty (mset st.wave n inter) :=
        waveNonempty_mset hw hne
      constructor
      · intro st' h
        rw [processDirs_cons_ok ds hd] at h
        rcases hr : processDirs W H jit cur
            { st with
              wave := mset st.wave n inter,
              entropy := mset st.entropy n
                ((inter.length : ℚ) - jit ctr / 10) } (ctr + 1) ds
          with st2 | ⟨st2, p2, c2⟩
        · rw [hr] at h
          cases h
          exact (ih _ (ctr + 1) hw1).1 _ hr
        · rw [hr] at h
          cases h
      · intro st' pushes ctr' h
        rw [processDirs_cons_ok ds hd] at h
        rcases hr : processDirs W H jit cur
            { st with
              wave := mset st.wave n inter,
              entropy := mset st.entropy n
                ((inter.length : ℚ) - jit ctr / 10) } (ctr + 1) ds
          with st2 | ⟨st2, p2, c2⟩
        · rw [hr] at h
          cases h
        · rw [hr] at h
          cases h
          exact (ih _ (ctr + 1) hw1).2 _ _ _ hr

theorem propagate_nil (W H : Nat) (jit : Nat → ℚ) (fuel : Nat)
    (st : EngineSt) (ctr : Nat) :
    propagate W H jit fuel st ctr [] = .done st := by
  cases fuel <;> rfl

theorem propagate_zero_cons (W H : Nat) (jit : Nat → ℚ) (st : EngineSt)
    (ctr cur : Nat) (rest : List Nat) :
    propagate W H jit 0 st ctr (cur :: rest) = .fuelout st := rfl

theorem propagate_succ_contra {W H : Nat} {jit : Nat → ℚ} {fuel : Nat}
    {st st2 : EngineSt} {ctr cur : Nat} {rest : List Nat}
    (h : processDirs W H jit cur st ctr directions = .contra st2) :
    propagate W H jit (fuel + 1) st ctr (cur :: rest) = .contra st2 := by
  conv_lhs => unfold propagate
  rw [h]

theorem propagate_succ_ok {W H : Nat} {jit : Nat → ℚ} {fuel : Nat}
    {st st2 : EngineSt} {ctr cur c2 : Nat} {rest p2 : List Nat}
    (h : processDirs W H jit cur st ctr directions = .ok st2 p2 c2) :
    propagate W H jit (fuel + 1) st ctr (cur :: rest) =
      propagate W H jit fuel st2 c2 (p2.reverse ++ rest) := by
  conv_lhs => unfold propagate
  rw [h]

theorem propagate_no_fuelout {W H : Nat} {jit : Nat → ℚ} :
    ∀ (fuel : Nat) (st : EngineSt) (ctr : Nat) (stack : List Nat),
      (st.wave.map Prod.fst).Nodup →
      potential st.wave + stack.length ≤ fuel →
      ∀ st0, propagate W H jit fuel st ctr stack ≠ .fuelout st0 := by
  intro fuel
  induction fuel with
  | zero =>
    intro st ctr stack hNd hle st0
    cases stack with
    | nil =>
      rw [propagate_nil]
      intro h
      cases h
    | cons cur rest =>
      exfalso
      simp at hle
  | succ fuel ih =>
    intro st ctr stack hNd hle st0
    cases stack with
    | nil =>
      rw [propagate_nil]
      intro h
      cases h
    | cons cur rest =>
      rcases hr : processDirs W H jit cur st ctr directions with st2 | ⟨st2, p2, c2⟩
      · rw [propagate_succ_contra hr]
        intro h
        cases h
      · rw [propagate_succ_ok hr]
        have hf := processDirs_ok_facts directions st ctr st2 p2 c2 hr hNd
        apply ih st2 c2 (p2.reverse ++ rest) hf.2
        simp only [List.length_append, List.length_reverse]
        simp only [List.length_cons] at hle
        omega

theorem propagate_waveNonempty {W H : Nat} {jit : Nat → ℚ} :
    ∀ (fuel : Nat) (st : EngineSt) (ctr : Nat) (stack : List Nat),
      WaveNonempty st.wave →
      ∀ st',
        (propagate W H jit fuel st ctr stack = .done st' ∨
         propagate W H jit fuel st ctr stack = .contra st' ∨
         propagate W H jit fuel st ctr stack = .fuelout st') →
        WaveNonempty st'.wave := by
  intro fuel
  induction fuel with
  | zero =>
    intro st ctr stack hw st' h
    cases stack with
    | nil =>
      rw [propagate_nil] at h
      rcases h with h | h | h <;> first
        | (cases h; exact hw)
        | cases h
    | cons cur rest =>
      rw [propagate_zero_cons] at h
      rcases h with h | h | h <;> first
        | (cases h; exact hw)
        | cases h
  | succ fuel ih =>
    intro st ctr stack hw st' h
    cases stack with
    | nil =>
      rw [propagate_nil] at h
      rcases h with h | h | h <;> first
        | (cases h; exact hw)
        | cases h
    | cons cur rest =>
      rcases hr : processDirs W H jit cur st ctr directions with st2 | ⟨st2, p2, c2⟩
      · rw [propagate_succ_contra hr] at h
        have hw2 := (processDirs_waveNonempty directions st ctr hw).1 st2 hr
        rcases h with h | h | h <;> first
          | (cases h; exact hw2)
          | cases h
      · rw [propagate_succ_ok hr] at h
        have hw2 := (processDirs_waveNonempty directions st ctr hw).2 st2 p2 c2 hr
        exact ih st2 c2 (p2.reverse ++ rest) hw2 st' h

/-- C9: every step terminates: with the fuel `draw` supplies (one more than
the total number of pattern ids stored in the wave), the propagation loop
always completes — each push is paid for by a strict, non-restorable shrink
of the pushed neighbour's domain — so `draw` never returns the fuel-
exhaustion marker.  The key-uniqueness hypothesis is the data-type invariant
of the JavaScript `Map` the wave lives in. -/
theorem draw_terminates (W H : Nat) (rng : Rng) (st : EngineSt)
    (hNd : (st.wave.map Prod.fst).Nodup) :
    (draw W H rng st).1 ≠ DrawRet.rstuck := by
  by_cases h : st.entropy.length = 0
  · simp [draw, h]
  · rcases hm : findMinEntropyKey st.entropy with - | m
    · simp [draw, h, hm]
    · rcases hs : selectRandomPattern st.wave (some m) st.frequencies rng.pick
        with - | selId
      · simp [draw, h, hm, hs]
      · rcases hp : propagate W H rng.jitter
            (potential (mset st.wave m [selId]) + 1)
            { st with
              wave := mset st.wave m [selId],
              entropy := mdelete st.entropy m } 0 [m] with st2 | st2 | st2
        · simp [draw, h, hm, hs, hp]
        · cases selId with
          | none => simp [draw, h, hm, hs, hp]
          | some n =>
            rcases hpat : st2.patterns[n]? with - | pat <;>
              simp [draw, h, hm, hs, hp, hpat]
        · exfalso
          have hNd1 : ((mset st.wave m [selId]).map Prod.fst).Nodup :=
            keys_mset_nodup _ _ _ hNd
          exact propagate_no_fuelout (potential (mset st.wave m [selId]) + 1)
            { st with
              wave := mset st.wave m [selId],
              entropy := mdelete st.entropy m } 0 [m] hNd1 (by simp) st2 hp

/-- Witness for C9 at a concrete state. -/
theorem draw_terminates_witness :
    (draw 1 1 ⟨0, fun _ => 0⟩ stIdxZero).1 ≠ DrawRet.rstuck :=
  draw_terminates 1 1 ⟨0, fun _ => 0⟩ stIdxZero (by simp [stIdxZero])

/-! ### Non-empty domains (C10) -/

/-- The twelve symmetry variants, written out. -/
theorem windowVariants_eq (m : Pat) :
    windowVariants m =
      [m, m.reverse, m.map List.reverse,
       rotate90 m, (rotate90 m).reverse, (rotate90 m).map List.reverse,
       rotate90 (rotate90 m), (rotate90 (rotate90 m)).reverse,
       (rotate90 (rotate90 m)).map List.reverse,
       rotate90 (rotate90 (rotate90 m)),
       (rotate90 (rotate90 (rotate90 m))).reverse,
       (rotate90 (rotate90 (rotate90 m))).map List.reverse] := rfl

theorem windowVariants_length (m : Pat) : (windowVariants m).length = 12 := by
  rw [windowVariants_eq]
  rfl

theorem length_allPatterns (N : Nat) (data : List Nat) (w h : Nat) :
    (allPatterns N data w h).length = h * (w * 12) := by
  unfold allPatterns
  rw [List.length_flatMap]
  simp only [Function.comp_def, List.length_flatMap, windowVariants_length]
  simp [List.map_const, List.sum_replicate, Nat.mul_comm]

theorem dedupStep_length_le (acc : List (Pat × Nat)) (p : Pat) :
    acc.length ≤ (dedupStep acc p).length := by
  unfold dedupStep
  by_cases h : acc.any (fun q => q.1 = p) <;> simp [h]

theorem dedupFold_foldl_length (l : List Pat) :
    ∀ acc : List (Pat × Nat), acc.length ≤ (l.foldl dedupStep acc).length := by
  induction l with
  | nil => intro acc; simp
  | cons a as ih =>
    intro acc
    calc acc.length ≤ (dedupStep acc a).length := dedupStep_length_le acc a
      _ ≤ (as.foldl dedupStep (dedupStep acc a)).length := ih _
      _ = ((a :: as).foldl dedupStep acc).length := by rw [List.foldl_cons]

theorem dedupFold_length_pos {l : List Pat} (hl : l ≠ []) :
    0 < (dedupFold l).length := by
  cases l with
  | nil => exact absurd rfl hl
  | cons a as =>
    unfold dedupFold
    rw [List.foldl_cons]
    have h1 : (dedupStep [] a) = [(a, 1)] := by
      unfold dedupStep
      simp
    rw [h1]
    have := dedupFold_foldl_length as [(a, 1)]
    simpa using Nat.lt_of_lt_of_le (by simp) this

/-- C10: every cell's domain in the wave is non-empty at all times: `setup`
on a sample with at least one pixel (hence at least one unique pattern)
initialises every cell to the full non-empty pattern range, and `draw`
preserves non-emptiness of all stored domains on every path — the collapse
writes a singleton, propagation writes only intersections checked non-empty,
and the empty intersection that signals a contradiction is discarded by the
early return and never written into the wave. -/
theorem wave_domains_nonempty :
    (∀ (outputDimWidth outputDimHeight patternDim : Nat) (imageData : List Nat)
       (imageWidth imageHeight canvasWidth canvasHeight seed : Nat),
       1 ≤ imageWidth → 1 ≤ imageHeight →
       WaveNonempty (setup outputDimWidth outputDimHeight patternDim imageData
         imageWidth imageHeight canvasWidth canvasHeight seed).wave) ∧
    (∀ (W H : Nat) (rng : Rng) (st : EngineSt),
       WaveNonempty st.wave → WaveNonempty (draw W H rng st).2.wave) := by
  constructor
  · intro odw odh N data iw ih cw ch seed hw hh c d hcd
    have hwave : (setup odw odh N data iw ih cw ch seed).wave =
        (List.range (odw * odh)).map (fun i =>
          (i, (List.range
            ((dedupFold (allPatterns N data iw ih)).map (fun q => q.1)).length).map
            some)) := rfl
    rw [hwave, mget_range_map] at hcd
    by_cases hc : c < odw * odh
    · rw [if_pos hc] at hcd
      cases hcd
      have hpos : 0 < (dedupFold (allPatterns N data iw ih)).length := by
        apply dedupFold_length_pos
        intro hnil
        have hlen := length_allPatterns N data iw ih
        rw [hnil] at hlen
        simp only [List.length_nil] at hlen
        have hpos2 : 0 < ih * (iw * 12) :=
          Nat.mul_pos hh (Nat.mul_pos hw (by norm_num))
        omega
      intro hcon
      rw [List.map_eq_nil_iff, List.range_eq_nil] at hcon
      simp only [List.length_map] at hcon
      omega
    · rw [if_neg hc] at hcd
      cases hcd
  · intro W H rng st hw
    by_cases h : st.entropy.length = 0
    · simpa [draw, h] using hw
    · rcases hm : findMinEntropyKey st.entropy with - | m
      · simpa [draw, h, hm] using hw
      · rcases hs : selectRandomPattern st.wave (some m) st.frequencies rng.pick
          with - | selId
        · simpa [draw, h, hm, hs] using hw
        · have hw1 : WaveNonempty (mset st.wave m [selId]) :=
            waveNonempty_mset hw (by simp)
          rcases hp : propagate W H rng.jitter
              (potential (mset st.wave m [selId]) + 1)
              { st with
                wave := mset st.wave m [selId],
                entropy := mdelete st.entropy m } 0 [m] with st2 | st2 | st2
          · have hw2 := propagate_waveNonempty
              (potential (mset st.wave m [selId]) + 1)
              { st with
                wave := mset st.wave m [selId],
                entropy := mdelete st.entropy m } 0 [m] hw1 st2
              (Or.inr (Or.inl hp))
            simpa [draw, h, hm, hs, hp] using hw2
          · have hw2 := propagate_waveNonempty
              (potential (mset st.wave m [selId]) + 1)
              { st with
                wave := mset st.wave m [selId],
                entropy := mdelete st.entropy m } 0 [m] hw1 st2
              (Or.inl hp)
            cases selId with
            | none => simpa [draw, h, hm, hs, hp] using hw2
            | some n =>
              rcases hpat : st2.patterns[n]? with - | pat <;>
                simpa [draw, h, hm, hs, hp, hpat] using hw2
          · have hw2 := propagate_waveNonempty
              (potential (mset st.wave m [selId]) + 1)
              { st with
                wave := mset st.wave m [selId],
                entropy := mdelete st.entropy m } 0 [m] hw1 st2
              (Or.inr (Or.inr hp))
            simpa [draw, h, hm, hs, hp] using hw2

/-- Witness for C10 at concrete inputs: a 1×1 sample with `N = 1`, and a
step on a concrete state. -/
theorem wave_domains_nonempty_witness :
    WaveNonempty (setup 2 2 1 [7, 7, 7, 7] 1 1 9 9 0).wave ∧
    WaveNonempty (draw 2 1 ⟨0, fun _ => 0⟩ stContra).2.wave := by
  constructor
  · exact wave_domains_nonempty.1 2 2 1 [7, 7, 7, 7] 1 1 9 9 0
      (by norm_num) (by norm_num)
  · refine wave_domains_nonempty.2 2 1 ⟨0, fun _ => 0⟩ stContra ?_
    intro c d hcd
    rw [show stContra.wave = [(0, [some 1, some 2]), (1, [some 0, some 1])]
      from rfl, mget_cons, mget_cons, mget_nil] at hcd
    by_cases h0 : (0 : Nat) = c
    · rw [if_pos h0] at hcd
      cases hcd
      simp
    · rw [if_neg h0] at hcd
      by_cases h1 : (1 : Nat) = c
      · rw [if_pos h1] at hcd
        cases hcd
        simp
      · rw [if_neg h1] at hcd
        cases hcd

/-- C6: for every sampled window, pattern extraction generates exactly 12
symmetry variants before deduplication: for each of the four quarter-turn
rotation stages (the window itself and one, two and three applications of
`rotate90`) it emits the rotated window, its row reversal (vertical mirror)
and its per-row column reversal (horizontal mirror); and `allPatterns`
emits exactly these for every sample position. -/
theorem extraction_twelve_variants (m : Pat) (N : Nat) (data : List Nat)
    (w h : Nat) :
    windowVariants m =
      [m, m.reverse, m.map List.reverse,
       rotate90 m, (rotate90 m).reverse, (rotate90 m).map List.reverse,
       rotate90 (rotate90 m), (rotate90 (rotate90 m)).reverse,
       (rotate90 (rotate90 m)).map List.reverse,
       rotate90 (rotate90 (rotate90 m)),
       (rotate90 (rotate90 (rotate90 m))).reverse,
       (rotate90 (rotate90 (rotate90 m))).map List.reverse] ∧
    (windowVariants m).length = 12 ∧
    allPatterns N data w h =
      (List.range h).flatMap (fun y =>
        (List.range w).flatMap (fun x =>
          windowVariants (cmatAt N data w h x y))) :=
  ⟨windowVariants_eq m, windowVariants_length m, rfl⟩

/-! ### Setup performs no validation (C8) -/

/-- C8 counterexample: `setup`, called with a zero-width output grid (and,
in the second half, with pattern dimension 3 exceeding a 1×1 sample's
dimensions), does not fail — the source's `setup` has no failure path and no
validation at all.  It proceeds: the wave is empty yet the entropy map gets
a (spurious) entry for cell 0, and the oversized pattern dimension still
yields a non-empty library (window extraction wraps modulo the sample
size) — refuting "fails fast with a descriptive error". -/
theorem setup_accepts_invalid_config :
    (setup 0 3 1 [7, 7, 7, 7] 1 1 9 9 5).wave = [] ∧
    (setup 0 3 1 [7, 7, 7, 7] 1 1 9 9 5).entropy.length = 1 ∧
    mhas (setup 0 3 1 [7, 7, 7, 7] 1 1 9 9 5).entropy 0 = true ∧
    (setup 5 5 3 [7, 7, 7, 7] 1 1 9 9 5).patterns ≠ [] := by decide

/-- C8 (amended): `setup` performs no validation and never fails.  On a
zero-cell output grid it still initialises state, leaving an empty wave but
a single (spurious) entropy entry at cell 0; and for any pattern dimension —
including one larger than the sample — it proceeds and builds a non-empty
pattern library from any sample with at least one pixel. -/
theorem setup_no_validation
    (outputDimWidth outputDimHeight patternDim : Nat) (imageData : List Nat)
    (imageWidth imageHeight canvasWidth canvasHeight seed : Nat) :
    (outputDimWidth * outputDimHeight = 0 →
      (setup outputDimWidth outputDimHeight patternDim imageData
        imageWidth imageHeight canvasWidth canvasHeight seed).wave = [] ∧
      (setup outputDimWidth outputDimHeight patternDim imageData
        imageWidth imageHeight canvasWidth canvasHeight seed).entropy.length = 1 ∧
      mhas (setup outputDimWidth outputDimHeight patternDim imageData
        imageWidth imageHeight canvasWidth canvasHeight seed).entropy 0 = true) ∧
    (1 ≤ imageWidth → 1 ≤ imageHeight →
      (setup outputDimWidth outputDimHeight patternDim imageData
        imageWidth imageHeight canvasWidth canvasHeight seed).patterns ≠ []) := by
  constructor
  · intro h0
    have hwave : (setup outputDimWidth outputDimHeight patternDim imageData
        imageWidth imageHeight canvasWidth canvasHeight seed).wave =
        (List.range (outputDimWidth * outputDimHeight)).map (fun i =>
          (i, (List.range ((dedupFold (allPatterns patternDim imageData
            imageWidth imageHeight)).map (fun q => q.1)).length).map some)) := rfl
    have hentropy : (setup outputDimWidth outputDimHeight patternDim imageData
        imageWidth imageHeight canvasWidth canvasHeight seed).entropy =
        mset ((List.range (outputDimWidth * outputDimHeight)).map (fun i =>
          (i, (((dedupFold (allPatterns patternDim imageData
            imageWidth imageHeight)).map (fun q => q.1)).length : ℚ))))
          (if outputDimWidth * outputDimHeight = 0 then 0
           else seed % (outputDimWidth * outputDimHeight))
          ((((dedupFold (allPatterns patternDim imageData
            imageWidth imageHeight)).map (fun q => q.1)).length : ℚ) - 1) := rfl
    refine ⟨?_, ?_, ?_⟩
    · rw [hwave, h0]
      simp
    · rw [hentropy, h0]
      simp [mset, mhas]
    · rw [hentropy, h0]
      simp [mset, mhas]
  · intro hw hh
    have hpats : (setup outputDimWidth outputDimHeight patternDim imageData
        imageWidth imageHeight canvasWidth canvasHeight seed).patterns =
        (dedupFold (allPatterns patternDim imageData
          imageWidth imageHeight)).map (fun q => q.1) := rfl
    rw [hpats]
    intro hnil
    have hpos : 0 < (dedupFold (allPatterns patternDim imageData
        imageWidth imageHeight)).length := by
      apply dedupFold_length_pos
      intro hnil2
      have hlen := length_allPatterns patternDim imageData imageWidth imageHeight
      rw [hnil2] at hlen
      simp only [List.length_nil] at hlen
      have hpos2 : 0 < imageHeight * (imageWidth * 12) :=
        Nat.mul_pos hh (Nat.mul_pos hw (by norm_num))
      omega
    rw [List.map_eq_nil_iff] at hnil
    rw [hnil] at hpos
    simp at hpos

/-- Witness for the amended C8 at the counterexample's concrete inputs. -/
theorem setup_no_validation_witness :
    ((setup 0 3 1 [7, 7, 7, 7] 1 1 9 9 5).wave = [] ∧
      (setup 0 3 1 [7, 7, 7, 7] 1 1 9 9 5).entropy.length = 1 ∧
      mhas (setup 0 3 1 [7, 7, 7, 7] 1 1 9 9 5).entropy 0 = true) ∧
    (setup 5 5 3 [7, 7, 7, 7] 1 1 9 9 5).patterns ≠ [] :=
  ⟨(setup_no_validation 0 3 1 [7, 7, 7, 7] 1 1 9 9 5).1 (by norm_num),
   (setup_no_validation 5 5 3 [7, 7, 7, 7] 1 1 9 9 5).2
     (by norm_num) (by norm_num)⟩

/-! ### The uniform single-colour sample (C5) -/

/-- A uniform sample: `w * h` pixels of the same colour, 4 bytes per pixel,
row-major. -/
def uniformData (w h r g b a : Nat) : List Nat :=
  (List.replicate (w * h) [r, g, b, a]).flatten

theorem flatten_replicate_getD (l : List Nat) :
    ∀ (n k j : Nat), k < n → j < l.length →
      ((List.replicate n l).flatten).getD (k * l.length + j) 0 = l.getD j 0 := by
  intro n
  induction n with
  | zero =>
    intro k j hk
    omega
  | succ n ih =>
    intro k j hk hj
    rw [List.replicate_succ, List.flatten_cons]
    cases k with
    | zero =>
      simp only [Nat.zero_mul, Nat.zero_add]
      exact List.getD_append _ _ _ _ hj
    | succ k =>
      have hidx : (k + 1) * l.length + j = l.length + (k * l.length + j) := by
        ring
      rw [hidx, List.getD_append_right _ _ _ _ (by omega)]
      have hsub : l.length + (k * l.length + j) - l.length =
          k * l.length + j := by omega
      rw [hsub]
      exact ih k j (by omega) hj

theorem cmatAt_uniform (w h r g b a x y : Nat) (hw : 1 ≤ w)
    (hx : x < w) (hy : y < h) :
    cmatAt 1 (uniformData w h r g b a) w h x y = [[[r, g, b, a]]] := by
  have hker : kernel 1 w = [[0]] := by
    simp [kernel, List.range_succ]
  have hk : y * w + x < w * h := by
    have h1 : y * w + x < (y + 1) * w := by
      rw [Nat.succ_mul]
      omega
    have h2 : (y + 1) * w ≤ h * w := Nat.mul_le_mul_right w hy
    rw [Nat.mul_comm w h]
    omega
  have hfetch : ∀ j, j < 4 →
      (uniformData w h r g b a).getD ((y * w + x) * 4 + j) 0 =
        [r, g, b, a].getD j 0 := by
    intro j hj
    have h4 : j < ([r, g, b, a] : List Nat).length := by simpa using hj
    have := flatten_replicate_getD [r, g, b, a] (w * h) (y * w + x) j hk h4
    simpa [uniformData] using this
  have e1 : (x + 0) % w = x := by
    rw [Nat.add_zero, Nat.mod_eq_of_lt hx]
  have e2 : (0 + w * y) / w % h = y := by
    rw [Nat.zero_add, Nat.mul_div_cancel_left y hw, Nat.mod_eq_of_lt hy]
  have h0 := hfetch 0 (by norm_num)
  have h1 := hfetch 1 (by norm_num)
  have h2 := hfetch 2 (by norm_num)
  have h3 := hfetch 3 (by norm_num)
  rw [Nat.add_zero] at h0
  simp only [cmatAt, hker, List.map_cons, List.map_nil, e1, e2]
  rw [h0, h1, h2, h3]
  rfl

theorem rotate90_single (c : Pixel) : rotate90 [[c]] = [[c]] := rfl

theorem allPatterns_uniform (w h r g b a : Nat) (hw : 1 ≤ w) :
    allPatterns 1 (uniformData w h r g b a) w h =
      List.replicate (h * (w * 12)) [[[r, g, b, a]]] := by
  have hmem : ∀ p ∈ allPatterns 1 (uniformData w h r g b a) w h,
      p = [[[r, g, b, a]]] := by
    intro p hp
    unfold allPatterns at hp
    rw [List.mem_flatMap] at hp
    obtain ⟨y, hy, hp⟩ := hp
    rw [List.mem_flatMap] at hp
    obtain ⟨x, hx, hp⟩ := hp
    rw [List.mem_range] at hy
    rw [List.mem_range] at hx
    rw [cmatAt_uniform w h r g b a x y hw hx hy] at hp
    rw [windowVariants_eq] at hp
    simp only [rotate90_single] at hp
    simp at hp
    exact hp
  have hrep := List.eq_replicate_of_mem hmem
  rw [length_allPatterns] at hrep
  exact hrep

theorem dedupFold_replicate_aux (p : Pat) :
    ∀ (n k : Nat), (List.replicate n p).foldl dedupStep [(p, k)] = [(p, k + n)] := by
  intro n
  induction n with
  | zero =>
    intro k
    simp
  | succ n ih =>
    intro k
    rw [List.replicate_succ, List.foldl_cons]
    have hstep : dedupStep [(p, k)] p = [(p, k + 1)] := by
      unfold dedupStep
      simp
    rw [hstep, ih]
    have : k + 1 + n = k + (n + 1) := by omega
    rw [this]

theorem dedupFold_replicate (p : Pat) (n : Nat) (hn : 1 ≤ n) :
    dedupFold (List.replicate n p) = [(p, n)] := by
  cases n with
  | zero => omega
  | succ n =>
    unfold dedupFold
    rw [List.replicate_succ, List.foldl_cons]
    have hstep : dedupStep [] p = [(p, 1)] := by
      unfold dedupStep
      simp
    rw [hstep, dedupFold_replicate_aux]
    have : 1 + n = n + 1 := by omega
    rw [this]

/-- The adjacency table of a single pattern compatible with itself in all
four directions. -/
def adjOne : List (Nat × List Dom) :=
  [(0, [[some 0], [some 0], [some 0], [some 0]])]

theorem dirIndex_cases (d : Int × Int) :
    dirIndex d = 0 ∨ dirIndex d = 1 ∨ dirIndex d = 2 ∨ dirIndex d = 3 := by
  unfold dirIndex
  split_ifs <;> simp

theorem uniform_processDir (W H : Nat) (jit : Nat → ℚ) (cur : Nat)
    (st : EngineSt) (ctr : Nat) (d : Int × Int)
    (hadj : st.adjacencies = adjOne)
    (hwave : ∀ c dm, mget st.wave c = some dm → dm = [some 0])
    (hcur : mget st.wave cur = some [some 0]) :
    processDir W H jit cur st ctr d = .ok st [] ctr := by
  unfold processDir
  rcases hn : neighborIndex W H cur d with - | n
  · rfl
  · by_cases he : mhas st.entropy n
    · simp only [he, if_true]
      have h0 : mget st.adjacencies 0 =
          some [[some 0], [some 0], [some 0], [some 0]] := by
        rw [hadj]
        rfl
      have hget4 : ([[some 0], [some 0], [some 0], [some 0]] : List Dom).getD
          (dirIndex d) [] = [some 0] := by
        rcases dirIndex_cases d with h | h | h | h <;> rw [h] <;> rfl
      rw [hcur]
      simp only [List.foldl_cons, List.foldl_nil, h0, hget4]
      cases hgn : mget st.wave n with
      | none =>
        simp [nsOfList, isSubSetOf]
      | some dn =>
        have hdn := hwave n dn hgn
        subst hdn
        simp [nsOfList, nsAdd, isSubSetOf]
    · simp [he]

theorem uniform_processDirs (W H : Nat) (jit : Nat → ℚ) (cur : Nat)
    (st : EngineSt) (ctr : Nat)
    (hadj : st.adjacencies = adjOne)
    (hwave : ∀ c dm, mget st.wave c = some dm → dm = [some 0])
    (hcur : mget st.wave cur = some [some 0]) :
    ∀ dirs : List (Int × Int),
      processDirs W H jit cur st ctr dirs = .ok st [] ctr := by
  intro dirs
  induction dirs with
  | nil => rfl
  | cons d ds ih =>
    rw [processDirs_cons_ok ds
      (uniform_processDir W H jit cur st ctr d hadj hwave hcur), ih]
    rfl

theorem uniform_propagate (W H : Nat) (jit : Nat → ℚ) (fuel : Nat)
    (st : EngineSt) (ctr m : Nat)
    (hadj : st.adjacencies = adjOne)
    (hwave : ∀ c dm, mget st.wave c = some dm → dm = [some 0])
    (hcur : mget st.wave m = some [some 0]) :
    propagate W H jit (fuel + 1) st ctr [m] = .done st := by
  rw [propagate_succ_ok (uniform_processDirs W H jit m st ctr hadj hwave hcur
    directions)]
  exact propagate_nil W H jit fuel st ctr

theorem uniform_select (wv : List (Nat × Dom)) (m f pick : Nat)
    (hwave : ∀ c dm, mget wv c = some dm → dm = [some 0]) (hf : 1 ≤ f) :
    selectRandomPattern wv (some m) [f] pick = none ∨
    selectRandomPattern wv (some m) [f] pick = some (some 0) := by
  simp only [selectRandomPattern]
  by_cases hm : m ≠ 0
  · rw [if_pos hm]
    cases hg : mget wv m with
    | none => exact Or.inl rfl
    | some dm =>
      have hdm := hwave m dm hg
      subst hdm
      right
      have hweight : (([some 0] : Dom).foldl
          (fun acc idP =>
            let freq := match idP with
              | some n => ([f] : List Nat).getD n 0
              | none => 0
            acc ++ List.replicate freq idP) []) =
          List.replicate f (some 0) := by
        simp [List.getD]
      simp only [hweight]
      have hf0 : ¬ f = 0 := by omega
      have hmod2 : pick % f < f := Nat.mod_lt pick (by omega)
      simp [hf0, List.getElem?_replicate, hmod2]
  · rw [if_neg hm]
    exact Or.inl rfl

/-- C5 (amended): a uniform single-colour sample of any size with `N = 1`
yields exactly one unique pattern whose frequency is `12 · (w·h)` (each
sampled position contributes its 12 symmetry variants, all content-equal),
an adjacency table in which that pattern is self-compatible in all four
directions, and a wave whose every domain is `{0}`; on any such state a step
either returns the `null` outcome leaving the state untouched (this is what
happens whenever the minimum-entropy cell is index 0, so a run can stall
with cells still uncollapsed) or collapses the selected cell to pattern 0 —
and a step never returns the Contradiction outcome. -/
theorem uniform_sample_end_to_end :
    (∀ (w h r g b a outputDimWidth outputDimHeight canvasWidth canvasHeight
        seed : Nat), 1 ≤ w → 1 ≤ h →
      (setup outputDimWidth outputDimHeight 1 (uniformData w h r g b a)
        w h canvasWidth canvasHeight seed).patterns = [[[[r, g, b, a]]]] ∧
      (setup outputDimWidth outputDimHeight 1 (uniformData w h r g b a)
        w h canvasWidth canvasHeight seed).frequencies = [12 * (w * h)] ∧
      (setup outputDimWidth outputDimHeight 1 (uniformData w h r g b a)
        w h canvasWidth canvasHeight seed).adjacencies = adjOne ∧
      (∀ c dm, mget (setup outputDimWidth outputDimHeight 1
          (uniformData w h r g b a) w h canvasWidth canvasHeight seed).wave c =
          some dm → dm = [some 0])) ∧
    (∀ (W H : Nat) (rng : Rng) (st : EngineSt) (f : Nat) (p0 : Pat),
      st.adjacencies = adjOne →
      (∀ c dm, mget st.wave c = some dm → dm = [some 0]) →
      st.frequencies = [f] → 1 ≤ f →
      st.patterns[0]? = some p0 →
      (draw W H rng st).1 ≠ DrawRet.rundef ∧
      (((draw W H rng st).1 = DrawRet.rnull ∧ (draw W H rng st).2 = st) ∨
       (∃ m, (draw W H rng st).1 =
          DrawRet.rsuccess p0 m st.cellDimensionX st.cellDimensionY ∧
        (draw W H rng st).2 =
          { st with
            wave := mset st.wave m [some 0],
            entropy := mdelete st.entropy m }))) := by
  constructor
  · intro w h r g b a odw odh cw ch seed hw hh
    have hcells : 1 ≤ h * (w * 12) :=
      Nat.one_le_iff_ne_zero.mpr (by positivity)
    have hlib : dedupFold (allPatterns 1 (uniformData w h r g b a) w h) =
        [([[[r, g, b, a]]], h * (w * 12))] := by
      rw [allPatterns_uniform w h r g b a hw]
      exact dedupFold_replicate _ _ hcells
    have hpat : (setup odw odh 1 (uniformData w h r g b a) w h cw ch
        seed).patterns =
        (dedupFold (allPatterns 1 (uniformData w h r g b a) w h)).map
          (fun q => q.1) := rfl
    have hfreq : (setup odw odh 1 (uniformData w h r g b a) w h cw ch
        seed).frequencies =
        (dedupFold (allPatterns 1 (uniformData w h r g b a) w h)).map
          (fun q => q.2) := rfl
    have hadj : (setup odw odh 1 (uniformData w h r g b a) w h cw ch
        seed).adjacencies =
        buildAdjacencies
          ((dedupFold (allPatterns 1 (uniformData w h r g b a) w h)).map
            (fun q => q.1)) 1 := rfl
    have hwave : (setup odw odh 1 (uniformData w h r g b a) w h cw ch
        seed).wave =
        (List.range (odw * odh)).map (fun i =>
          (i, (List.range
            ((dedupFold (allPatterns 1 (uniformData w h r g b a) w h)).map
              (fun q => q.1)).length).map some)) := rfl
    refine ⟨?_, ?_, ?_, ?_⟩
    · rw [hpat, hlib]
      rfl
    · rw [hfreq, hlib]
      have : h * (w * 12) = 12 * (w * h) := by ring
      simp [this]
    · rw [hadj, hlib]
      rfl
    · intro c dm hcd
      rw [hwave, hlib] at hcd
      rw [mget_range_map] at hcd
      by_cases hc : c < odw * odh
      · rw [if_pos hc] at hcd
        cases hcd
        rfl
      · rw [if_neg hc] at hcd
        cases hcd
  · intro W H rng st f p0 hadj hwave hfreq hf hp0
    by_cases h : st.entropy.length = 0
    · refine ⟨by simp [draw, h], Or.inl ⟨by simp [draw, h], by simp [draw, h]⟩⟩
    · rcases hm : findMinEntropyKey st.entropy with - | m
      · exact ⟨by simp [draw, h, hm],
          Or.inl ⟨by simp [draw, h, hm], by simp [draw, h, hm]⟩⟩
      · rcases hsel : selectRandomPattern st.wave (some m) st.frequencies
            rng.pick with - | selId
        · exact ⟨by simp [draw, h, hm, hsel],
            Or.inl ⟨by simp [draw, h, hm, hsel], by simp [draw, h, hm, hsel]⟩⟩
        · have hsel0 : selId = some 0 := by
            rcases uniform_select st.wave m f rng.pick hwave hf with hs | hs
            · rw [hfreq] at hsel
              rw [hsel] at hs
              cases hs
            · rw [hfreq] at hsel
              rw [hsel] at hs
              exact Option.some.inj hs
          subst hsel0
          have hwave1 : ∀ c dm,
              mget (mset st.wave m [some 0]) c = some dm → dm = [some 0] := by
            intro c dm hcd
            by_cases hcm : c = m
            · subst hcm
              rw [mget_mset_self] at hcd
              exact (Option.some.inj hcd).symm
            · rw [mget_mset_ne _ _ _ _ hcm] at hcd
              exact hwave c dm hcd
          have hprop := uniform_propagate W H rng.jitter
            (potential (mset st.wave m [some 0]))
            { st with
              wave := mset st.wave m [some 0],
              entropy := mdelete st.entropy m } 0 m hadj hwave1
            (mget_mset_self _ _ _)
          refine ⟨by simp [draw, h, hm, hsel, hprop, hp0],
            Or.inr ⟨m, by simp [draw, h, hm, hsel, hprop, hp0],
              by simp [draw, h, hm, hsel, hprop, hp0]⟩⟩

/-- C5 counterexample: on a 1×1 uniform sample with `N = 1` the unique
pattern's frequency is 12, not the pixel count 1; and a 1×1-grid run whose
randomly pre-seeded low-entropy cell is cell 0 returns `null` on the very
first step while the EntropyIndex is still non-empty, so the run never
collapses every cell. -/
theorem uniform_sample_claim_fails :
    (setup 3 2 1 (uniformData 1 1 5 6 7 8) 1 1 9 9 4).frequencies = [12] ∧
    (12 : Nat) ≠ 1 * 1 ∧
    (draw 1 1 ⟨0, fun _ => 0⟩
      (setup 1 1 1 (uniformData 1 1 5 6 7 8) 1 1 9 9 0)).1 = DrawRet.rnull ∧
    (draw 1 1 ⟨0, fun _ => 0⟩
      (setup 1 1 1 (uniformData 1 1 5 6 7 8) 1 1 9 9 0)).2.entropy.length =
      1 := by decide

/-- Witness for the amended C5 at concrete inputs: the library conjunct at a
1×1 sample, and one step on the state `setup` produces for it. -/
theorem uniform_sample_end_to_end_witness :
    ((setup 2 2 1 (uniformData 1 1 5 6 7 8) 1 1 9 9 1).frequencies =
      [12 * (1 * 1)] ∧
     (setup 2 2 1 (uniformData 1 1 5 6 7 8) 1 1 9 9 1).adjacencies =
      adjOne) ∧
    ((draw 3 2 ⟨0, fun _ => 0⟩
        (setup 2 2 1 (uniformData 1 1 5 6 7 8) 1 1 9 9 1)).1 ≠
      DrawRet.rundef) := by
  have hA := uniform_sample_end_to_end.1 1 1 5 6 7 8 2 2 9 9 1
    (le_refl 1) (le_refl 1)
  have hB := uniform_sample_end_to_end.2 3 2 ⟨0, fun _ => 0⟩
    (setup 2 2 1 (uniformData 1 1 5 6 7 8) 1 1 9 9 1) (12 * (1 * 1))
    [[[5, 6, 7, 8]]] hA.2.2.1 hA.2.2.2 hA.2.1 (by norm_num)
    (by rw [hA.1]; rfl)
  exact ⟨⟨hA.2.1, hA.2.2.1⟩, hB.1⟩

end WFC
